import Mathlib

/-!
Shallow embedding of the ECTorsionDetector core (elliptic-curve torsion
detection over ℚ via Nagell–Lutz and Mazur's bound), together with proofs
of the specification claims about it.

Python `Fraction` is modelled by `ℚ`, Python floor-division/modulo on
integers by `Int.fdiv`/`Int.fmod`, and `int()` truncation by `Int.tdiv`.
-/

namespace ECT

/-- Error kinds raised by the core (Python exceptions). -/
inductive Err where
  | invalidCurve
  | divisionByZero
  | nonIntegralModel
  | notOnCurve
  | noModularInverse
deriving DecidableEq, Repr

/-! ## `modular_arithmetic.py` -/

namespace ModularArithmetic

/-- `(Int.fmod b a).natAbs < a.natAbs` for `a ≠ 0`: the floor-remainder is
strictly smaller in magnitude than the divisor.  Used for the termination of
`extended_gcd`, which recurses exactly like the Python source. -/
theorem natAbs_fmod_lt (b a : ℤ) (h : a ≠ 0) : (Int.fmod b a).natAbs < a.natAbs := by
  match b, a with
  | 0, a =>
      simp only [Int.zero_fmod, Int.natAbs_zero]
      exact Int.natAbs_pos.mpr h
  | Int.ofNat (m+1), Int.ofNat n =>
      have hn : n ≠ 0 := by simpa using h
      simp only [Int.fmod, Int.natAbs_ofNat]
      exact Nat.mod_lt _ (Nat.pos_of_ne_zero hn)
  | Int.ofNat (m+1), Int.negSucc n =>
      have hmn : m % (n+1) < n + 1 := Nat.mod_lt _ (Nat.succ_pos n)
      simp only [Int.fmod, Int.subNatNat_eq_coe, Int.natAbs_negSucc, Nat.succ_eq_add_one]
      omega
  | Int.negSucc m, Int.ofNat n =>
      have hn : n ≠ 0 := by simpa using h
      have hmn : m % n < n := Nat.mod_lt _ (Nat.pos_of_ne_zero hn)
      simp only [Int.fmod, Int.subNatNat_eq_coe, Int.natAbs_ofNat, Nat.succ_eq_add_one,
        Int.ofNat_eq_natCast]
      push_cast
      omega
  | Int.negSucc m, Int.negSucc n =>
      have hmn : (m+1) % (n+1) < n + 1 := Nat.mod_lt _ (Nat.succ_pos n)
      simp only [Int.fmod, Int.natAbs_neg, Int.natAbs_ofNat, Int.natAbs_negSucc,
        Nat.succ_eq_add_one, Int.ofNat_eq_natCast]
      omega

/-- `ModularArithmetic.extended_gcd`: the recursive extended Euclidean
algorithm of the source, with Python's floor-division semantics
(`%` = `Int.fmod`, `//` = `Int.fdiv`).  Returns `(g, x, y)` with
`g = a*x + b*y`. -/
def extended_gcd (a b : ℤ) : ℤ × ℤ × ℤ :=
  if a = 0 then (b, 0, 1)
  else
    let r := extended_gcd (Int.fmod b a) a
    (r.1, r.2.2 - (Int.fdiv b a) * r.2.1, r.2.1)
termination_by a.natAbs
decreasing_by
  exact natAbs_fmod_lt b a (by assumption)

/-- `ModularArithmetic.modular_inverse`: raises `NoModularInverse` when the
`g` returned by `extended_gcd` is not 1, otherwise returns
`(x % m + m) % m` with Python's floor-mod.  Python's `x % 0` raises
`ZeroDivisionError`, modelled by the `divisionByZero` error. -/
def modular_inverse (a m : ℤ) : Except Err ℤ :=
  let r := extended_gcd a m
  if r.1 ≠ 1 then .error .noModularInverse
  else if m = 0 then .error .divisionByZero
  else .ok (Int.fmod (Int.fmod r.2.1 m + m) m)

end ModularArithmetic

/-! ## `elliptic_curve.py` -/

/-- `Point`: the identity (point at infinity) or a finite point with exact
rational coordinates.  Equality is structural, as in the source. -/
inductive Point where
  | identity : Point
  | finite (x y : ℚ) : Point
deriving DecidableEq, Repr

/-- `Point.__init__` negation used by `scalar_multiply`:
`Point(P.x, -P.y) if not P.is_identity else P`. -/
def Point.pyNeg : Point → Point
  | .identity => .identity
  | .finite x y => .finite x (-y)

/-- `EllipticCurve`: Weierstrass model `y² = x³ + a·x + b` over ℚ.
The `field_mod` parameter of the source is always `None` in the core
covered by the claims and is omitted. -/
structure EllipticCurve where
  a : ℚ
  b : ℚ
deriving DecidableEq, Repr

namespace EllipticCurve

/-- `EllipticCurve.discriminant`: `-16(4a³ + 27b²)`. -/
def discriminant (C : EllipticCurve) : ℚ :=
  -16 * (4 * C.a ^ 3 + 27 * C.b ^ 2)

/-- Modelled from the spec: `is_integral_model` is called by
`TorsionFinder.__init__` and the web layer but its definition is not in the
available sources; the spec (§3) defines it as true iff `a` and `b` are both
integers (denominator 1). -/
def is_integral_model (C : EllipticCurve) : Bool :=
  C.a.den == 1 && C.b.den == 1

/-- `EllipticCurve.__init__`: construction fails with `InvalidCurve` when
the discriminant is zero. -/
def mk? (a b : ℚ) : Except Err EllipticCurve :=
  if (EllipticCurve.mk a b).discriminant = 0 then .error .invalidCurve
  else .ok (EllipticCurve.mk a b)

/-- `EllipticCurve.is_on_curve`: exact rational test of `y² = x³ + ax + b`;
the identity is on every curve. -/
def is_on_curve (C : EllipticCurve) (P : Point) : Bool :=
  match P with
  | .identity => true
  | .finite x y => decide (y ^ 2 = x ^ 3 + C.a * x + C.b)

/-- `EllipticCurve.add`: the chord-and-tangent group law, translated branch
by branch from the source. -/
def add (C : EllipticCurve) (P Q : Point) : Point :=
  match P, Q with
  | .identity, q => q
  | p, .identity => p
  | .finite x1 y1, .finite x2 y2 =>
    if x1 = x2 ∧ y1 = -y2 then .identity
    else if x1 = x2 ∧ y1 = y2 then
      if y1 = 0 then .identity
      else
        let l := (3 * x1 ^ 2 + C.a) / (2 * y1)
        let x3 := l ^ 2 - x1 - x2
        .finite x3 (l * (x1 - x3) - y1)
    else if x2 = x1 then .identity
    else
      let l := (y2 - y1) / (x2 - x1)
      let x3 := l ^ 2 - x1 - x2
      .finite x3 (l * (x1 - x3) - y1)

/-- `EllipticCurve.double`. -/
def double (C : EllipticCurve) (P : Point) : Point :=
  C.add P P

/-- The `while n > 0` loop of `scalar_multiply`: test the low bit, add the
addend into the accumulator, double the addend, halve `n`. -/
def mulLoop (C : EllipticCurve) (result addend : Point) (n : ℕ) : Point :=
  if h : n = 0 then result
  else mulLoop C (if n % 2 = 1 then C.add result addend else result) (C.double addend) (n / 2)
termination_by n
decreasing_by
  exact Nat.div_lt_self (Nat.pos_of_ne_zero h) one_lt_two

/-- `EllipticCurve.scalar_multiply`: `n = 0` gives the identity; `n < 0`
negates the point and recurses on `-n` (here the single recursive call of
the source is unfolded: `-n` is positive, so it goes to the loop). -/
def scalar_multiply (C : EllipticCurve) (P : Point) (n : ℤ) : Point :=
  if n = 0 then .identity
  else if n < 0 then C.mulLoop .identity P.pyNeg (-n).toNat
  else C.mulLoop .identity P n.toNat

end EllipticCurve

/-- The `n`-fold repeated sum `P + P + ⋯ + P` (naive repeated addition,
the reference semantics the spec compares `scalar_multiply` against; it is
also exactly the sequence of running totals of the `check_torsion` loop). -/
def repeatedAdd (C : EllipticCurve) (P : Point) : ℕ → Point
  | 0 => .identity
  | n + 1 => C.add (repeatedAdd C P n) P

/-! ## `torsion_finder.py` -/

/-- `math.isqrt`, used by `_integer_divisors`.  (Library function of the
source's runtime; `Nat.sqrt` is the same exact integer square root.) -/
def isqrt (n : ℕ) : ℕ := Nat.sqrt n

/-- `_integer_divisors(n)`: all divisors `d` of `|n|` found by trial
division up to `isqrt |n|`, paired with `|n| / d`, then closed under
negation.  The Python function returns a set; the list below enumerates the
same elements (possibly with repetitions, which no caller can observe). -/
def _integer_divisors (n : ℤ) : List ℤ :=
  let m := n.natAbs
  let divs := ((List.range (isqrt m)).map (· + 1)).filter (fun d => m % d = 0)
  let both := divs ++ divs.map (fun d => m / d)
  both.map (fun d : ℕ => (d : ℤ)) ++ both.map (fun d : ℕ => -(d : ℤ))

/-- Python `int()` applied to a `Fraction`: truncation toward zero. -/
def pyInt (q : ℚ) : ℤ := Int.tdiv q.num q.den

/-- `TorsionFinder`: owns a curve and a private order cache.  The Python
dict `torsion_cache` is modelled as a function `Point → Option ℕ`. -/
structure TorsionFinder where
  curve : EllipticCurve
  torsion_cache : Point → Option ℕ

/-- `TorsionFinder.MAZUR_MAX_ORDER`. -/
def MAZUR_MAX_ORDER : ℕ := 12

/-- `TorsionFinder.MAZUR_CYCLIC_ORDERS`. -/
def MAZUR_CYCLIC_ORDERS : List ℕ := [1, 2, 3, 4, 5, 6, 7, 8, 9, 10, 12]

/-- `TorsionFinder.__init__`: store the curve and an empty cache; raise
`NonIntegralModel` when the curve is not an integral model. -/
def mkTorsionFinder (C : EllipticCurve) : Except Err TorsionFinder :=
  if ¬ C.is_integral_model then .error .nonIntegralModel
  else .ok ⟨C, fun _ => none⟩

/-- `TorsionResult`: the dictionary returned by `check_torsion`. -/
structure TorsionResult where
  is_torsion : Bool
  order : Option ℕ
  multiples : List Point
deriving DecidableEq, Repr

/-- The `for n in range(1, MAZUR_MAX_ORDER + 1)` loop of `check_torsion`:
at step `n` the running total `current` is tested against the identity;
if it is not the identity it is appended to `multiples` and `P` is added.
`fuel` counts the remaining iterations. -/
def torsionLoop (C : EllipticCurve) (P : Point) :
    Point → List Point → ℕ → ℕ → Option ℕ × List Point
  | _, mult, _, 0 => (none, mult)
  | current, mult, n, fuel + 1 =>
    if current = .identity then (some n, mult)
    else torsionLoop C P (C.add current P) (mult ++ [current]) (n + 1) fuel

/-- The loop of `_compute_multiples`: `count` iterations of
"append `current`, then add `P`". -/
def multLoop (C : EllipticCurve) (P : Point) : Point → ℕ → List Point
  | _, 0 => []
  | current, k + 1 => current :: multLoop C P (C.add current P) k

/-- `TorsionFinder._compute_multiples(P, order)`. -/
def _compute_multiples (C : EllipticCurve) (P : Point) (order : ℕ) : List Point :=
  multLoop C P P (order - 1)

/-- `TorsionFinder.check_torsion(P)`: raise `NotOnCurve` for a point off
the curve; serve a cached order with recomputed multiples; otherwise run
the Mazur-bounded loop, caching the order when the identity is reached.
Returns the result together with the (possibly updated) finder. -/
def check_torsion (F : TorsionFinder) (P : Point) :
    Except Err (TorsionResult × TorsionFinder) :=
  if ¬ F.curve.is_on_curve P then .error .notOnCurve
  else
    match F.torsion_cache P with
    | some order => .ok (⟨true, some order, _compute_multiples F.curve P order⟩, F)
    | none =>
      match torsionLoop F.curve P P [] 1 MAZUR_MAX_ORDER with
      | (some n, mult) =>
        .ok (⟨true, some n, mult⟩,
          ⟨F.curve, fun Q => if Q = P then some n else F.torsion_cache Q⟩)
      | (none, mult) => .ok (⟨false, none, mult⟩, F)

/-- Insertion with Python-set semantics: add only if absent (used to model
the `candidates` set of `_nagell_lutz_candidates`). -/
def setInsert (l : List Point) (P : Point) : List Point :=
  if P ∈ l then l else l ++ [P]

/-- The integer x-values `range(-bound, bound + 1)` scanned for a candidate
y-value. -/
def xWindow (bound : ℕ) : List ℤ :=
  (List.range (2 * bound + 1)).map (fun i => (i : ℤ) - bound)

/-- The candidate y-values of `_nagell_lutz_candidates`: `{0}` plus every
divisor `d` of `Δ` with `d ≠ 0` and `Δ % d² == 0`, where
`Δ = abs(int(discriminant))`. -/
def y_values (C : EllipticCurve) : List ℤ :=
  let Delta : ℤ := ((pyInt C.discriminant).natAbs : ℤ)
  0 :: (_integer_divisors Delta).filter (fun d => d ≠ 0 ∧ Int.fmod Delta (d * d) = 0)

/-- `TorsionFinder._nagell_lutz_candidates`.  The source computes the
x-window bound as `int(abs(y)**(2/3) + abs(A) + abs(B) + 10)` with binary
floating point; that bound is modelled as an arbitrary function `xb` of the
candidate y-value, because every property claimed of the sieve holds for
every choice of window.  The `candidates` Python set is modelled as a
duplicate-free list seeded with the identity. -/
def _nagell_lutz_candidates (C : EllipticCurve) (xb : ℤ → ℕ) : List Point :=
  let A := pyInt C.a
  let B := pyInt C.b
  (y_values C).foldl
    (fun acc y =>
      (xWindow (xb y)).foldl
        (fun acc2 x =>
          if y * y = x * x * x + A * x + B ∧ C.is_on_curve (.finite x y) then
            setInsert acc2 (.finite (x : ℚ) (y : ℚ))
          else acc2)
        acc)
    [Point.identity]

/-- `SubgroupResult`: the dictionary returned by `find_torsion_subgroup`.
The `orders` dict is modelled as the association list built in loop order. -/
structure SubgroupResult where
  torsion_points : List Point
  orders : List (Point × ℕ)
  group_structure : String
  size : ℕ

/-- The classification loop of `find_torsion_subgroup`: classify each
candidate with `check_torsion`, collecting torsion points and their orders
(`r.order` is always `some n` when `r.is_torsion`, so `getD 0` is never
taken at its default). -/
def subLoop (F : TorsionFinder) :
    List Point → List Point → List (Point × ℕ) →
    Except Err (List Point × List (Point × ℕ) × TorsionFinder)
  | [], pts, ords => .ok (pts, ords, F)
  | P :: rest, pts, ords =>
    match check_torsion F P with
    | .error e => .error e
    | .ok (r, F') =>
      if r.is_torsion then
        subLoop F' rest (pts ++ [P]) (ords ++ [(P, r.order.getD 0)])
      else subLoop F' rest pts ords

/-- `TorsionFinder._analyze_group_structure(points, orders)`. -/
def _analyze_group_structure (points : List Point) (orders : List (Point × ℕ)) : String :=
  if points.length = 0 then "Trivial"
  else if points.length = 1 then "Z/1Z"
  else
    let size := points.length
    let max_order := (orders.map (·.2)).foldl max 0
    if size = max_order then "Z/" ++ toString max_order ++ "Z"
    else
      let order_2_count := ((orders.map (·.2)).filter (fun o => o = 2)).length
      if 3 ≤ order_2_count ∧ size = 2 * max_order then
        "Z/2Z x Z/" ++ toString max_order ++ "Z"
      else
        "Unknown (size=" ++ toString size ++ ", max_order=" ++ toString max_order ++ ")"

/-- `TorsionFinder.find_torsion_subgroup`: run the sieve, classify every
candidate, and package points, orders, structure label and size. -/
def find_torsion_subgroup (F : TorsionFinder) (xb : ℤ → ℕ) :
    Except Err (SubgroupResult × TorsionFinder) :=
  match subLoop F (_nagell_lutz_candidates F.curve xb) [] [] with
  | .error e => .error e
  | .ok (pts, ords, F') =>
    .ok (⟨pts, ords, _analyze_group_structure pts ords, pts.length⟩, F')

/-- `VerifyResult`: the dictionary returned by `verify_torsion_theorem`. -/
structure VerifyResult where
  is_valid : Bool
  size : ℕ
  group_structure : String
  conforms_to_mazur : Bool
  torsion_points : List Point

/-- `TorsionFinder.verify_torsion_theorem`: recompute the subgroup and
check its size against `MAZUR_CYCLIC_ORDERS + [4, 8, 12, 16]` (or size 1). -/
def verify_torsion_theorem (F : TorsionFinder) (xb : ℤ → ℕ) :
    Except Err (VerifyResult × TorsionFinder) :=
  match find_torsion_subgroup F xb with
  | .error e => .error e
  | .ok (td, F') =>
    let size := td.size
    let valid_sizes := MAZUR_CYCLIC_ORDERS ++ [4, 8, 12, 16]
    .ok (⟨valid_sizes.contains size || size == 1, size, td.group_structure,
          valid_sizes.contains size || size == 1, td.torsion_points⟩, F')

/-! ## Helper lemmas: the `check_torsion` loop -/

/-- One repeated addition of the identity gives back the point. -/
theorem repeatedAdd_one (C : EllipticCurve) (P : Point) : repeatedAdd C P 1 = P := by
  simp [repeatedAdd, EllipticCurve.add]

/-- Characterization of the `check_torsion` loop: starting at running total
`repeatedAdd C P k` with `fuel` iterations left, either some `j` in
`[k, k + fuel)` is the first index whose multiple is the identity and the
loop reports `(some j, mult ++ [kP, …, (j-1)P])`, or no such index exists
and the loop reports `(none, mult ++ [kP, …, (k+fuel-1)P])`. -/
theorem torsionLoop_spec (C : EllipticCurve) (P : Point) :
    ∀ (fuel k : ℕ) (mult : List Point),
      (∃ j, k ≤ j ∧ j < k + fuel ∧ repeatedAdd C P j = .identity ∧
        (∀ i, k ≤ i → i < j → repeatedAdd C P i ≠ .identity) ∧
        torsionLoop C P (repeatedAdd C P k) mult k fuel
          = (some j, mult ++ (List.range' k (j - k)).map (repeatedAdd C P))) ∨
      ((∀ j, k ≤ j → j < k + fuel → repeatedAdd C P j ≠ .identity) ∧
        torsionLoop C P (repeatedAdd C P k) mult k fuel
          = (none, mult ++ (List.range' k fuel).map (repeatedAdd C P)))
  | 0, k, mult => .inr ⟨fun j h1 h2 => absurd (h1.trans_lt h2) (by omega),
      by simp [torsionLoop]⟩
  | fuel + 1, k, mult => by
      by_cases h : repeatedAdd C P k = .identity
      · exact .inl ⟨k, le_refl k, by omega, h,
          fun i h1 h2 => absurd h1 (by omega), by simp [torsionLoop, h]⟩
      · have step : torsionLoop C P (repeatedAdd C P k) mult k (fuel + 1)
            = torsionLoop C P (repeatedAdd C P (k + 1))
                (mult ++ [repeatedAdd C P k]) (k + 1) fuel := by
          simp [torsionLoop, h, repeatedAdd]
        rcases torsionLoop_spec C P fuel (k + 1) (mult ++ [repeatedAdd C P k]) with
          ⟨j, hj1, hj2, hj3, hj4, heq⟩ | ⟨hall, heq⟩
        · refine .inl ⟨j, by omega, by omega, hj3, ?_, ?_⟩
          · intro i h1 h2
            rcases Nat.eq_or_lt_of_le h1 with rfl | h1'
            · exact h
            · exact hj4 i h1' h2
          · rw [step, heq]
            have hr : List.range' k (j - k) = k :: List.range' (k + 1) (j - (k + 1)) := by
              have hjk : j - k = (j - (k + 1)) + 1 := by omega
              rw [hjk, List.range'_succ]
            simp [hr]
        · refine .inr ⟨?_, ?_⟩
          · intro j h1 h2
            rcases Nat.eq_or_lt_of_le h1 with rfl | h1'
            · exact h
            · exact hall j h1' (by omega)
          · rw [step, heq, List.range'_succ]
            simp

/-- The `_compute_multiples` loop produces consecutive multiples. -/
theorem multLoop_eq (C : EllipticCurve) (P : Point) :
    ∀ (c k : ℕ), multLoop C P (repeatedAdd C P k) c
      = (List.range' k c).map (repeatedAdd C P)
  | 0, k => by simp [multLoop]
  | c + 1, k => by
      have : C.add (repeatedAdd C P k) P = repeatedAdd C P (k + 1) := rfl
      rw [List.range'_succ]
      simp only [multLoop, this, multLoop_eq C P c (k + 1), List.map_cons]

/-- `_compute_multiples(P, n)` is `[P, 2P, …, (n-1)P]`. -/
theorem compute_multiples_eq (C : EllipticCurve) (P : Point) (n : ℕ) :
    _compute_multiples C P n = (List.range' 1 (n - 1)).map (repeatedAdd C P) := by
  have h1 := multLoop_eq C P (n - 1) 1
  rw [repeatedAdd_one] at h1
  rw [_compute_multiples, h1]

/-- The invariant of the `torsion_cache` (claim C9): every entry maps an
on-curve point to its exact order, which lies in `[1, 12]`; in particular a
point with no multiple reaching the identity within Mazur's bound (a
non-torsion classification) is never present. -/
def CacheOK (C : EllipticCurve) (cache : Point → Option ℕ) : Prop :=
  ∀ P n, cache P = some n →
    C.is_on_curve P = true ∧ 1 ≤ n ∧ n ≤ MAZUR_MAX_ORDER ∧
    repeatedAdd C P n = .identity ∧
    ∀ m, 1 ≤ m → m < n → repeatedAdd C P m ≠ .identity

/-- `check_torsion` on a point off the curve. -/
theorem check_torsion_not_on_curve (F : TorsionFinder) (P : Point)
    (h : F.curve.is_on_curve P = false) :
    check_torsion F P = .error Err.notOnCurve := by
  simp [check_torsion, h]

/-- `check_torsion` on an on-curve point whose least identity-reaching
multiple is `n ≤ 12`, under the cache invariant. -/
theorem check_torsion_torsion_case (F : TorsionFinder) (P : Point) (n : ℕ)
    (hon : F.curve.is_on_curve P = true)
    (hcache : CacheOK F.curve F.torsion_cache)
    (h1 : 1 ≤ n) (h2 : n ≤ 12)
    (hid : repeatedAdd F.curve P n = .identity)
    (hmin : ∀ m, 1 ≤ m → m < n → repeatedAdd F.curve P m ≠ .identity) :
    ∃ F', check_torsion F P =
      .ok (⟨true, some n, (List.range' 1 (n - 1)).map (repeatedAdd F.curve P)⟩, F') := by
  rw [check_torsion, if_neg (by simp [hon])]
  cases hc : F.torsion_cache P with
  | some o =>
      obtain ⟨-, ho1, -, hoid, homin⟩ := hcache P o hc
      have hno : n = o := by
        rcases Nat.lt_trichotomy n o with hlt | heq | hgt
        · exact absurd hid (homin n h1 hlt)
        · exact heq
        · exact absurd hoid (hmin o ho1 hgt)
      exact ⟨F, by simp [compute_multiples_eq, hno]⟩
  | none =>
      rcases torsionLoop_spec F.curve P 12 1 [] with
        ⟨j, hj1, hj2, hj3, hj4, heq⟩ | ⟨hall, -⟩
      · have hjn : j = n := by
          rcases Nat.lt_trichotomy j n with hlt | heq' | hgt
          · exact absurd hj3 (hmin j hj1 hlt)
          · exact heq'
          · exact absurd hid (hj4 n h1 hgt)
        rw [repeatedAdd_one] at heq
        refine ⟨⟨F.curve, fun Q => if Q = P then some n else F.torsion_cache Q⟩, ?_⟩
        rw [MAZUR_MAX_ORDER, heq]
        simp [hjn]
      · exact absurd hid (hall n h1 (by omega))

/-- `check_torsion` on an on-curve point none of whose first twelve
multiples is the identity, under the cache invariant. -/
theorem check_torsion_nontorsion_case (F : TorsionFinder) (P : Point)
    (hon : F.curve.is_on_curve P = true)
    (hcache : CacheOK F.curve F.torsion_cache)
    (hno : ∀ m, 1 ≤ m → m ≤ 12 → repeatedAdd F.curve P m ≠ .identity) :
    check_torsion F P =
      .ok (⟨false, none, (List.range' 1 12).map (repeatedAdd F.curve P)⟩, F) := by
  rw [check_torsion, if_neg (by simp [hon])]
  cases hc : F.torsion_cache P with
  | some o =>
      obtain ⟨-, ho1, ho2, hoid, -⟩ := hcache P o hc
      exact absurd hoid (hno o ho1 ho2)
  | none =>
      rcases torsionLoop_spec F.curve P 12 1 [] with
        ⟨j, hj1, hj2, hj3, -, -⟩ | ⟨-, heq⟩
      · exact absurd hj3 (hno j hj1 (by omega))
      · rw [repeatedAdd_one] at heq
        rw [MAZUR_MAX_ORDER, heq]
        simp

/-- Claim C2: `check_torsion` classifies an on-curve point as torsion with
its least order `n ∈ [1, 12]` and multiples `[P, …, (n-1)P]`, reports
non-torsion (order `none`, the twelve partial multiples, a normal `.ok`
result) when the bound is exhausted, and fails with `NotOnCurve` on a point
off the curve. -/
theorem C2_check_torsion_classification (F : TorsionFinder) (P : Point)
    (hcache : CacheOK F.curve F.torsion_cache) :
    (F.curve.is_on_curve P = false → check_torsion F P = .error Err.notOnCurve) ∧
    (F.curve.is_on_curve P = true →
      (∀ n, 1 ≤ n → n ≤ 12 → repeatedAdd F.curve P n = .identity →
        (∀ m, 1 ≤ m → m < n → repeatedAdd F.curve P m ≠ .identity) →
        ∃ F', check_torsion F P =
          .ok (⟨true, some n, (List.range' 1 (n - 1)).map (repeatedAdd F.curve P)⟩, F')) ∧
      ((∀ m, 1 ≤ m → m ≤ 12 → repeatedAdd F.curve P m ≠ .identity) →
        check_torsion F P =
          .ok (⟨false, none, (List.range' 1 12).map (repeatedAdd F.curve P)⟩, F))) :=
  ⟨check_torsion_not_on_curve F P,
   fun hon =>
    ⟨fun n h1 h2 hid hmin =>
        check_torsion_torsion_case F P n hon hcache h1 h2 hid hmin,
     fun hno => check_torsion_nontorsion_case F P hon hcache hno⟩⟩

/-- Witness for C2 on the curve `y² = x³ - x` with the 2-torsion point
`(0, 0)` and the off-curve point `(2, 1)`. -/
theorem C2_check_torsion_classification_witness :
    ∃ F', check_torsion ⟨⟨-1, 0⟩, fun _ => none⟩ (.finite 0 0) =
      .ok (⟨true, some 2,
        (List.range' 1 (2 - 1)).map (repeatedAdd ⟨-1, 0⟩ (.finite 0 0))⟩, F') := by
  refine ((C2_check_torsion_classification ⟨⟨-1, 0⟩, fun _ => none⟩ (.finite 0 0)
    (fun _ _ h => nomatch h)).2 ?_).1 2 (by omega) (by omega) ?_ ?_
  · norm_num [EllipticCurve.is_on_curve]
  · norm_num [repeatedAdd, EllipticCurve.add]
  · intro m h1 h2
    have hm : m = 1 := by omega
    subst hm
    simp [repeatedAdd, EllipticCurve.add]

/-! ## Claim C1: the integral-model gate -/

/-- Claim C1: constructing a `TorsionFinder` fails with `NonIntegralModel`
exactly when the curve's coefficients `a`, `b` are not both integers
(denominator 1); for integral coefficients it succeeds. -/
theorem C1_nonintegral_model_gate (C : EllipticCurve) :
    (mkTorsionFinder C = .error Err.nonIntegralModel ↔
      ¬ (C.a.den = 1 ∧ C.b.den = 1)) ∧
    ((C.a.den = 1 ∧ C.b.den = 1) →
      mkTorsionFinder C = .ok ⟨C, fun _ => none⟩) := by
  by_cases h : C.a.den = 1 ∧ C.b.den = 1
  · constructor
    · rw [mkTorsionFinder, if_neg (by simp [EllipticCurve.is_integral_model, h.1, h.2])]
      simp [h]
    · intro _
      rw [mkTorsionFinder, if_neg (by simp [EllipticCurve.is_integral_model, h.1, h.2])]
  · constructor
    · rw [mkTorsionFinder,
        if_pos (by simp only [EllipticCurve.is_integral_model, Bool.and_eq_true,
          beq_iff_eq]; simpa using h)]
      simp [h]
    · exact fun hi => absurd hi h


/-- Witness for C1: `a = 1/2, b = 0` is rejected with `NonIntegralModel`
(spec scenario E); `a = -1, b = 0` is accepted. -/
theorem C1_nonintegral_model_gate_witness :
    mkTorsionFinder ⟨mkRat 1 2, 0⟩ = .error Err.nonIntegralModel ∧
    mkTorsionFinder ⟨-1, 0⟩ = .ok ⟨⟨-1, 0⟩, fun _ => none⟩ :=
  ⟨(C1_nonintegral_model_gate ⟨mkRat 1 2, 0⟩).1.mpr (by norm_num [Rat.den]),
   (C1_nonintegral_model_gate ⟨-1, 0⟩).2 (by norm_num)⟩

/-! ## Claims C7 and C9: idempotence and the cache invariant -/

/-- Claim C7: `check_torsion` is idempotent — a second call on the finder
returned by a successful first call yields exactly the same result (flag,
order and multiples) and the same finder. -/
theorem C7_check_torsion_idempotent (F : TorsionFinder) (P : Point)
    (r : TorsionResult) (F' : TorsionFinder)
    (h : check_torsion F P = .ok (r, F')) :
    check_torsion F' P = .ok (r, F') := by
  by_cases hon : F.curve.is_on_curve P = true
  · rw [check_torsion, if_neg (by simp [hon])] at h
    rcases hc : F.torsion_cache P with - | o
    · simp only [hc] at h
      rcases hl : torsionLoop F.curve P P [] 1 MAZUR_MAX_ORDER with ⟨ores, mult⟩
      rcases ores with - | n
      · simp only [hl] at h
        obtain ⟨rfl, rfl⟩ : (⟨false, none, mult⟩ : TorsionResult) = r ∧ F = F' := by
          simpa using h
        rw [check_torsion, if_neg (by simp [hon])]
        simp only [hc, hl]
      · simp only [hl] at h
        obtain ⟨rfl, rfl⟩ : (⟨true, some n, mult⟩ : TorsionResult) = r ∧
            (⟨F.curve, fun Q => if Q = P then some n else F.torsion_cache Q⟩ :
              TorsionFinder) = F' := by
          simpa using h
        have hmm : mult = _compute_multiples F.curve P n := by
          rcases torsionLoop_spec F.curve P MAZUR_MAX_ORDER 1 [] with
            ⟨j, -, -, -, -, heq⟩ | ⟨-, heq⟩
          · rw [repeatedAdd_one] at heq
            rw [heq] at hl
            obtain ⟨rfl, rfl⟩ : j = n ∧
                ([] : List Point) ++ (List.range' 1 (j - 1)).map (repeatedAdd F.curve P)
                  = mult := by simpa using hl
            simp [compute_multiples_eq]
          · rw [repeatedAdd_one] at heq
            rw [heq] at hl
            simp at hl
        rw [check_torsion, if_neg (by simp [hon])]
        simp [hmm]
    · simp only [hc] at h
      obtain ⟨rfl, rfl⟩ : (⟨true, some o, _compute_multiples F.curve P o⟩ : TorsionResult) = r
          ∧ F = F' := by simpa using h
      rw [check_torsion, if_neg (by simp [hon])]
      simp only [hc]
  · rw [check_torsion, if_pos hon] at h
    exact absurd h (by simp)

/-- Witness for C7: re-checking `(0, 0)` on `y² = x³ - x`. -/
theorem C7_check_torsion_idempotent_witness :
    ∃ r F', check_torsion ⟨⟨-1, 0⟩, fun _ => none⟩ (.finite 0 0) = .ok (r, F') ∧
      check_torsion F' (.finite 0 0) = .ok (r, F') := by
  obtain ⟨F', h⟩ := check_torsion_torsion_case ⟨⟨-1, 0⟩, fun _ => none⟩ (.finite 0 0) 2
    (by norm_num [EllipticCurve.is_on_curve]) (fun _ _ h => nomatch h)
    (by omega) (by omega) (by norm_num [repeatedAdd, EllipticCurve.add])
    (by intro m h1 h2
        have hm : m = 1 := by omega
        subst hm
        simp [repeatedAdd, EllipticCurve.add])
  exact ⟨_, F', h, C7_check_torsion_idempotent _ _ _ _ h⟩

/-- The finder produced by `mkTorsionFinder` has an empty, trivially
invariant-respecting cache. -/
theorem mk_cacheOK (C : EllipticCurve) (F : TorsionFinder)
    (h : mkTorsionFinder C = .ok F) : CacheOK F.curve F.torsion_cache := by
  rw [mkTorsionFinder] at h
  split at h
  · exact absurd h (by simp)
  · obtain rfl : (⟨C, fun _ => none⟩ : TorsionFinder) = F := by simpa using h
    exact fun P n hn => nomatch hn

/-- `check_torsion` preserves the curve and the cache invariant. -/
theorem check_torsion_preserves (F : TorsionFinder) (P : Point)
    (r : TorsionResult) (F' : TorsionFinder)
    (hcache : CacheOK F.curve F.torsion_cache)
    (h : check_torsion F P = .ok (r, F')) :
    F'.curve = F.curve ∧ CacheOK F'.curve F'.torsion_cache := by
  by_cases hon : F.curve.is_on_curve P = true
  · rw [check_torsion, if_neg (by simp [hon])] at h
    rcases hc : F.torsion_cache P with - | o
    · simp only [hc] at h
      rcases hl : torsionLoop F.curve P P [] 1 MAZUR_MAX_ORDER with ⟨ores, mult⟩
      rcases ores with - | n
      · simp only [hl] at h
        obtain ⟨-, rfl⟩ : (⟨false, none, mult⟩ : TorsionResult) = r ∧ F = F' := by
          simpa using h
        exact ⟨rfl, hcache⟩
      · simp only [hl] at h
        obtain ⟨-, rfl⟩ : (⟨true, some n, mult⟩ : TorsionResult) = r ∧
            (⟨F.curve, fun Q => if Q = P then some n else F.torsion_cache Q⟩ :
              TorsionFinder) = F' := by
          simpa using h
        refine ⟨rfl, fun Q k hk => ?_⟩
        dsimp only at hk ⊢
        by_cases hQ : Q = P
        · subst hQ
          rw [if_pos rfl] at hk
          obtain rfl : n = k := by simpa using hk
          rcases torsionLoop_spec F.curve Q MAZUR_MAX_ORDER 1 [] with
            ⟨j, hj1, hj2, hj3, hj4, heq⟩ | ⟨-, heq⟩
          · rw [repeatedAdd_one] at heq
            rw [heq] at hl
            obtain ⟨rfl, -⟩ : j = n ∧
                ([] : List Point) ++ (List.range' 1 (j - 1)).map (repeatedAdd F.curve Q)
                  = mult := by simpa using hl
            have hM : MAZUR_MAX_ORDER = 12 := rfl
            rw [hM] at hj2
            exact ⟨hon, hj1, by omega, hj3, hj4⟩
          · rw [repeatedAdd_one] at heq
            rw [heq] at hl
            simp at hl
        · rw [if_neg hQ] at hk
          exact hcache Q k hk
    · simp only [hc] at h
      obtain ⟨-, rfl⟩ : (⟨true, some o, _compute_multiples F.curve P o⟩ : TorsionResult) = r
          ∧ F = F' := by simpa using h
      exact ⟨rfl, hcache⟩
  · rw [check_torsion, if_pos hon] at h
    exact absurd h (by simp)

/-- The classification loop of `find_torsion_subgroup` preserves the curve
and the cache invariant. -/
theorem subLoop_preserves (cands : List Point) :
    ∀ (F : TorsionFinder) (pts : List Point) (ords : List (Point × ℕ))
      (res : List Point × List (Point × ℕ) × TorsionFinder),
      CacheOK F.curve F.torsion_cache →
      subLoop F cands pts ords = .ok res →
      res.2.2.curve = F.curve ∧ CacheOK res.2.2.curve res.2.2.torsion_cache
  | F, pts, ords, res, hcache, h => by
    match cands with
    | [] =>
        obtain rfl : (pts, ords, F) = res := by simpa [subLoop] using h
        exact ⟨rfl, hcache⟩
    | P :: rest =>
        rw [subLoop] at h
        rcases hct : check_torsion F P with e | ⟨r, F1⟩
        · simp only [hct] at h
          exact absurd h (by simp)
        · simp only [hct] at h
          obtain ⟨hcurve1, hcache1⟩ := check_torsion_preserves F P r F1 hcache hct
          by_cases hr : r.is_torsion = true
          · rw [if_pos hr] at h
            obtain ⟨hc2, hk2⟩ := subLoop_preserves rest F1 (pts ++ [P])
              (ords ++ [(P, r.order.getD 0)]) res (hcurve1 ▸ hcache1) h
            exact ⟨hc2.trans hcurve1, hk2⟩
          · rw [if_neg hr] at h
            obtain ⟨hc2, hk2⟩ := subLoop_preserves rest F1 pts ords res
              (hcurve1 ▸ hcache1) h
            exact ⟨hc2.trans hcurve1, hk2⟩

/-- `find_torsion_subgroup` preserves the curve and the cache invariant. -/
theorem find_preserves (F : TorsionFinder) (xb : ℤ → ℕ) (sr : SubgroupResult)
    (F' : TorsionFinder) (hcache : CacheOK F.curve F.torsion_cache)
    (h : find_torsion_subgroup F xb = .ok (sr, F')) :
    F'.curve = F.curve ∧ CacheOK F'.curve F'.torsion_cache := by
  rw [find_torsion_subgroup] at h
  rcases hs : subLoop F (_nagell_lutz_candidates F.curve xb) [] [] with e | ⟨pts, ords, F1⟩
  · simp only [hs] at h
    exact absurd h (by simp)
  · simp only [hs] at h
    obtain ⟨-, rfl⟩ : (⟨pts, ords, _analyze_group_structure pts ords, pts.length⟩ :
        SubgroupResult) = sr ∧ F1 = F' := by simpa using h
    exact subLoop_preserves _ F [] [] (pts, ords, F1) hcache hs

/-- `verify_torsion_theorem` preserves the curve and the cache invariant. -/
theorem verify_preserves (F : TorsionFinder) (xb : ℤ → ℕ) (v : VerifyResult)
    (F' : TorsionFinder) (hcache : CacheOK F.curve F.torsion_cache)
    (h : verify_torsion_theorem F xb = .ok (v, F')) :
    F'.curve = F.curve ∧ CacheOK F'.curve F'.torsion_cache := by
  unfold verify_torsion_theorem at h
  rcases hf : find_torsion_subgroup F xb with e | ⟨td, F1⟩
  · simp only [hf] at h
    exact absurd h (by simp)
  · simp only [hf] at h
    injection h with h1
    injection h1 with h2 h3
    subst h3
    exact find_preserves F xb td F1 hcache hf

/-- Claim C9: the order-cache invariant — every entry maps an on-curve
point to its exact least order in `[1, 12]` (so non-torsion points are
never inserted) — holds for a freshly constructed finder and is preserved
by `check_torsion`, `find_torsion_subgroup` and `verify_torsion_theorem`. -/
theorem C9_cache_invariant :
    (∀ (C : EllipticCurve) (F : TorsionFinder),
      mkTorsionFinder C = .ok F → CacheOK F.curve F.torsion_cache) ∧
    (∀ (F : TorsionFinder) (P : Point) (r : TorsionResult) (F' : TorsionFinder),
      CacheOK F.curve F.torsion_cache → check_torsion F P = .ok (r, F') →
      CacheOK F'.curve F'.torsion_cache) ∧
    (∀ (F : TorsionFinder) (xb : ℤ → ℕ) (sr : SubgroupResult) (F' : TorsionFinder),
      CacheOK F.curve F.torsion_cache → find_torsion_subgroup F xb = .ok (sr, F') →
      CacheOK F'.curve F'.torsion_cache) ∧
    (∀ (F : TorsionFinder) (xb : ℤ → ℕ) (v : VerifyResult) (F' : TorsionFinder),
      CacheOK F.curve F.torsion_cache → verify_torsion_theorem F xb = .ok (v, F') →
      CacheOK F'.curve F'.torsion_cache) :=
  ⟨mk_cacheOK,
   fun F P r F' hc h => (check_torsion_preserves F P r F' hc h).2,
   fun F xb sr F' hc h => (find_preserves F xb sr F' hc h).2,
   fun F xb v F' hc h => (verify_preserves F xb v F' hc h).2⟩

/-- Witness for C9: the invariant holds for the cache produced by checking
the 2-torsion point `(0, 0)` on `y² = x³ - x` starting from a fresh finder. -/
theorem C9_cache_invariant_witness :
    ∃ r F', check_torsion ⟨⟨-1, 0⟩, fun _ => none⟩ (.finite 0 0) = .ok (r, F') ∧
      CacheOK F'.curve F'.torsion_cache := by
  obtain ⟨F', h⟩ := check_torsion_torsion_case ⟨⟨-1, 0⟩, fun _ => none⟩ (.finite 0 0) 2
    (by norm_num [EllipticCurve.is_on_curve]) (fun _ _ h => nomatch h)
    (by omega) (by omega) (by norm_num [repeatedAdd, EllipticCurve.add])
    (by intro m h1 h2
        have hm : m = 1 := by omega
        subst hm
        simp [repeatedAdd, EllipticCurve.add])
  exact ⟨_, F', h,
    C9_cache_invariant.2.1 ⟨⟨-1, 0⟩, fun _ => none⟩ (.finite 0 0) _ F'
      (fun _ _ hx => nomatch hx) h⟩

/-! ## Helper lemmas: the Nagell–Lutz sieve -/

/-- A vanishing floor-remainder means divisibility. -/
theorem fmod_eq_zero_dvd (a b : ℤ) (h : Int.fmod a b = 0) : b ∣ a := by
  have h2 := Int.fmod_add_fdiv a b
  rw [h, zero_add] at h2
  exact ⟨Int.fdiv a b, h2.symm⟩

/-- Soundness of `_integer_divisors`: every listed element is a nonzero
divisor of the argument. -/
theorem mem_integer_divisors {n e : ℤ} (he : e ∈ _integer_divisors n) :
    e ≠ 0 ∧ e ∣ n := by
  have hboth : ∀ d : ℕ, d ∈ (((List.range (isqrt n.natAbs)).map (· + 1)).filter
        (fun d => n.natAbs % d = 0)) ++ (((List.range (isqrt n.natAbs)).map (· + 1)).filter
        (fun d => n.natAbs % d = 0)).map (fun d => n.natAbs / d) →
      1 ≤ d ∧ d ∣ n.natAbs := by
    intro d hd
    by_cases hm : n.natAbs = 0
    · rw [hm] at hd
      simp [isqrt] at hd
    · have hmpos : 0 < n.natAbs := Nat.pos_of_ne_zero hm
      rcases List.mem_append.mp hd with hd1 | hd2
      · have h1 := List.of_mem_filter hd1
        have h2 := List.mem_of_mem_filter hd1
        simp only [List.mem_map, List.mem_range] at h2
        obtain ⟨i, -, rfl⟩ := h2
        simp only [decide_eq_true_eq] at h1
        exact ⟨by omega, Nat.dvd_of_mod_eq_zero h1⟩
      · simp only [List.mem_map] at hd2
        obtain ⟨d0, hd0, rfl⟩ := hd2
        have h1 := List.of_mem_filter hd0
        have h2 := List.mem_of_mem_filter hd0
        simp only [List.mem_map, List.mem_range] at h2
        obtain ⟨i, -, rfl⟩ := h2
        simp only [decide_eq_true_eq] at h1
        have hdvd : (i + 1) ∣ n.natAbs := Nat.dvd_of_mod_eq_zero h1
        exact ⟨Nat.div_pos (Nat.le_of_dvd hmpos hdvd) (by omega),
          Nat.div_dvd_of_dvd hdvd⟩
  have he2 : e ∈ (((((List.range (isqrt n.natAbs)).map (· + 1)).filter
        (fun d => n.natAbs % d = 0)) ++ (((List.range (isqrt n.natAbs)).map (· + 1)).filter
        (fun d => n.natAbs % d = 0)).map (fun d => n.natAbs / d) : List ℕ)).map
          (fun d : ℕ => (d : ℤ))
      ++ (((((List.range (isqrt n.natAbs)).map (· + 1)).filter
        (fun d => n.natAbs % d = 0)) ++ (((List.range (isqrt n.natAbs)).map (· + 1)).filter
        (fun d => n.natAbs % d = 0)).map (fun d => n.natAbs / d) : List ℕ)).map
          (fun d : ℕ => -(d : ℤ)) := he
  rcases List.mem_append.mp he2 with h | h
  · obtain ⟨d, hd, hde⟩ := List.mem_map.mp h
    obtain ⟨h1, h2⟩ := hboth d hd
    subst hde
    exact ⟨Int.natCast_ne_zero.mpr (by omega),
      Int.dvd_natAbs.mp (Int.natCast_dvd_natCast.mpr h2)⟩
  · obtain ⟨d, hd, hde⟩ := List.mem_map.mp h
    obtain ⟨h1, h2⟩ := hboth d hd
    subst hde
    exact ⟨neg_ne_zero.mpr (Int.natCast_ne_zero.mpr (by omega)),
      (neg_dvd).mpr (Int.dvd_natAbs.mp (Int.natCast_dvd_natCast.mpr h2))⟩

/-- Soundness of the candidate y-values: each is zero or a divisor `d` of
`|Δ|` with `d²` dividing `|Δ|`. -/
theorem y_values_sound (C : EllipticCurve) {y : ℤ} (hy : y ∈ y_values C) :
    y = 0 ∨ (y ∣ ((pyInt C.discriminant).natAbs : ℤ) ∧
      y * y ∣ ((pyInt C.discriminant).natAbs : ℤ)) := by
  rw [y_values] at hy
  rcases List.mem_cons.mp hy with h0 | hmem
  · exact .inl h0
  · right
    have h1 := List.of_mem_filter hmem
    have h2 := List.mem_of_mem_filter hmem
    simp only [decide_eq_true_eq] at h1
    exact ⟨(mem_integer_divisors h2).2, fmod_eq_zero_dvd _ _ h1.2⟩

/-- Membership after a set-semantics insertion. -/
theorem mem_setInsert {l : List Point} {P Q : Point} :
    Q ∈ setInsert l P ↔ Q ∈ l ∨ Q = P := by
  rw [setInsert]
  split
  · constructor
    · exact fun h => .inl h
    · rintro (h | rfl)
      · exact h
      · assumption
  · simp

/-- Set-semantics insertion keeps the list duplicate-free. -/
theorem setInsert_nodup {l : List Point} (h : l.Nodup) (P : Point) :
    (setInsert l P).Nodup := by
  rw [setInsert]
  split
  · exact h
  · simp [List.nodup_append, h]
    assumption

/-- The property claimed of every sieve candidate: the identity, or a
finite point with integer coordinates lying on the curve whose y-value is
zero or a divisor `d` of `|Δ|` with `d² ∣ |Δ|`. -/
def NLGood (C : EllipticCurve) (P : Point) : Prop :=
  P = Point.identity ∨
    ∃ x y : ℤ, P = .finite (x : ℚ) (y : ℚ) ∧ C.is_on_curve P = true ∧
      (y = 0 ∨ (y ∣ ((pyInt C.discriminant).natAbs : ℤ) ∧
        y * y ∣ ((pyInt C.discriminant).natAbs : ℤ)))

/-- Fold invariant: a property preserved by every step of a `foldl` holds
of its result. -/
theorem foldl_invariant {α β : Type} (Inv : β → Prop) (f : β → α → β) :
    ∀ (l : List α) (b : β), Inv b → (∀ b a, a ∈ l → Inv b → Inv (f b a)) →
      Inv (l.foldl f b)
  | [], b, hb, _ => hb
  | a :: l, b, hb, hstep =>
      foldl_invariant Inv f l (f b a) (hstep b a (List.mem_cons_self a l) hb)
        (fun b2 a2 ha2 hb2 => hstep b2 a2 (List.mem_cons_of_mem a ha2) hb2)

/-- The sieve's output contains the identity, is duplicate-free (it models
a Python set), and every member is `NLGood` — for every window bound. -/
theorem nl_candidates_spec (C : EllipticCurve) (xb : ℤ → ℕ) :
    Point.identity ∈ _nagell_lutz_candidates C xb ∧
    (_nagell_lutz_candidates C xb).Nodup ∧
    ∀ P ∈ _nagell_lutz_candidates C xb, NLGood C P := by
  rw [_nagell_lutz_candidates]
  refine foldl_invariant
    (fun acc => Point.identity ∈ acc ∧ acc.Nodup ∧ ∀ P ∈ acc, NLGood C P)
    _ (y_values C) [Point.identity] ⟨by simp, by simp, ?_⟩ ?_
  · intro P hP
    simp only [List.mem_singleton] at hP
    exact .inl hP
  · intro acc y hy hacc
    refine foldl_invariant
      (fun acc2 => Point.identity ∈ acc2 ∧ acc2.Nodup ∧ ∀ P ∈ acc2, NLGood C P)
      _ (xWindow (xb y)) acc hacc ?_
    intro acc2 x hx hacc2
    split
    · next hcond =>
        obtain ⟨hm, hnd, hgood⟩ := hacc2
        refine ⟨mem_setInsert.mpr (.inl hm), setInsert_nodup hnd _, ?_⟩
        intro P hP
        rcases mem_setInsert.mp hP with h | rfl
        · exact hgood P h
        · exact .inr ⟨x, y, rfl, hcond.2, y_values_sound C hy⟩
    · exact hacc2

/-! ## Claim C5: soundness of the sieve -/

/-- Claim C5: for every integral curve and every x-window bound, the sieve
returns a duplicate-free (set-like) list that contains the identity, and
every other member is a finite integer point on the curve whose y-value is
zero or a divisor `d` of `|Δ|` (in either sign) with `d²` dividing `|Δ|`. -/
theorem C5_sieve_soundness (C : EllipticCurve) (xb : ℤ → ℕ)
    (hint : C.is_integral_model = true) :
    Point.identity ∈ _nagell_lutz_candidates C xb ∧
    (_nagell_lutz_candidates C xb).Nodup ∧
    ∀ P ∈ _nagell_lutz_candidates C xb, P = Point.identity ∨
      ∃ x y : ℤ, P = .finite (x : ℚ) (y : ℚ) ∧ C.is_on_curve P = true ∧
        (y = 0 ∨ (y ∣ ((pyInt C.discriminant).natAbs : ℤ) ∧
          y * y ∣ ((pyInt C.discriminant).natAbs : ℤ))) :=
  nl_candidates_spec C xb

/-- Witness for C5 on the integral curve `y² = x³ - x` with window bound 1. -/
theorem C5_sieve_soundness_witness :
    (⟨-1, 0⟩ : EllipticCurve).is_integral_model = true ∧
    (Point.identity ∈ _nagell_lutz_candidates ⟨-1, 0⟩ (fun _ => 1) ∧
     (_nagell_lutz_candidates ⟨-1, 0⟩ (fun _ => 1)).Nodup ∧
     ∀ P ∈ _nagell_lutz_candidates ⟨-1, 0⟩ (fun _ => 1), NLGood ⟨-1, 0⟩ P) :=
  ⟨by decide, C5_sieve_soundness ⟨-1, 0⟩ (fun _ => 1) (by decide)⟩

/-! ## Helper lemmas: totality of the classification pipeline -/

/-- `check_torsion` never raises on a point of the curve. -/
theorem check_torsion_ok_of_on_curve (F : TorsionFinder) (P : Point)
    (hon : F.curve.is_on_curve P = true) :
    ∃ r F1, check_torsion F P = .ok (r, F1) := by
  rw [check_torsion, if_neg (by simp [hon])]
  rcases hc : F.torsion_cache P with - | o
  · simp only [hc]
    rcases hl : torsionLoop F.curve P P [] 1 MAZUR_MAX_ORDER with ⟨ores, mult⟩
    rcases ores with - | n
    · exact ⟨_, _, rfl⟩
    · exact ⟨_, _, rfl⟩
  · simp only [hc]
    exact ⟨_, _, rfl⟩

/-- Under the cache invariant, checking the identity always reports torsion
of order 1 with no proper multiples. -/
theorem check_torsion_identity (F : TorsionFinder)
    (hcache : CacheOK F.curve F.torsion_cache) :
    ∃ F', check_torsion F .identity = .ok (⟨true, some 1, []⟩, F') := by
  obtain ⟨F', h⟩ := check_torsion_torsion_case F .identity 1 rfl hcache (le_refl 1)
    (by omega) (repeatedAdd_one F.curve .identity) (fun m h1 h2 => absurd h1 (by omega))
  exact ⟨F', by simpa using h⟩

/-- Totality and content of the classification loop: on a list of on-curve
candidates it succeeds, only grows the accumulators, and records the
identity (when present) as a torsion point of order 1. -/
theorem subLoop_total (cands : List Point) :
    ∀ (F : TorsionFinder) (pts : List Point) (ords : List (Point × ℕ)),
      CacheOK F.curve F.torsion_cache →
      (∀ P ∈ cands, F.curve.is_on_curve P = true) →
      ∃ pts2 ords2 F2,
        subLoop F cands pts ords = .ok (pts2, ords2, F2) ∧
        F2.curve = F.curve ∧
        (∀ Q, Q ∈ pts → Q ∈ pts2) ∧ (∀ e, e ∈ ords → e ∈ ords2) ∧
        pts.length ≤ pts2.length ∧
        (Point.identity ∈ cands → Point.identity ∈ pts2 ∧ (Point.identity, 1) ∈ ords2)
  | F, pts, ords, hcache, hon => by
    match cands with
    | [] =>
        exact ⟨pts, ords, F, by simp [subLoop], rfl, fun _ h => h, fun _ h => h,
          le_refl _, by simp⟩
    | P :: rest =>
        obtain ⟨r, F1, hok⟩ := check_torsion_ok_of_on_curve F P
          (hon P (List.mem_cons_self P rest))
        obtain ⟨hcurve1, hcache1⟩ := check_torsion_preserves F P r F1 hcache hok
        have hrest_on : ∀ Q ∈ rest, F1.curve.is_on_curve Q = true := by
          rw [hcurve1]
          exact fun Q hQ => hon Q (List.mem_cons_of_mem P hQ)
        by_cases hr : r.is_torsion = true
        · have hstep : subLoop F (P :: rest) pts ords
              = subLoop F1 rest (pts ++ [P]) (ords ++ [(P, r.order.getD 0)]) := by
            rw [subLoop, hok]
            simp [hr]
          obtain ⟨pts2, ords2, F2, hsl, hc2, hp2, ho2, hlen, hid⟩ :=
            subLoop_total rest F1 (pts ++ [P]) (ords ++ [(P, r.order.getD 0)])
              hcache1 hrest_on
          refine ⟨pts2, ords2, F2, hstep.trans hsl, hc2.trans hcurve1,
            fun Q hQ => hp2 Q (by simp [hQ]), fun e he => ho2 e (by simp [he]),
            by have := hlen; simp at this; omega, ?_⟩
          intro hidm
          rcases List.mem_cons.mp hidm with hPid | hidr
          · obtain ⟨F1', hok'⟩ := check_torsion_identity F hcache
            rw [← hPid] at hok
            rw [hok'] at hok
            obtain ⟨hre, -⟩ : (⟨true, some 1, []⟩ : TorsionResult) = r ∧ F1' = F1 := by
              simpa using hok
            refine ⟨hp2 _ (by simp [hPid]), ho2 _ ?_⟩
            rw [← hre, ← hPid]
            simp
          · exact hid hidr
        · have hstep : subLoop F (P :: rest) pts ords = subLoop F1 rest pts ords := by
            rw [subLoop, hok]
            simp [hr]
          obtain ⟨pts2, ords2, F2, hsl, hc2, hp2, ho2, hlen, hid⟩ :=
            subLoop_total rest F1 pts ords hcache1 hrest_on
          refine ⟨pts2, ords2, F2, hstep.trans hsl, hc2.trans hcurve1,
            hp2, ho2, hlen, ?_⟩
          intro hidm
          rcases List.mem_cons.mp hidm with hPid | hidr
          · exfalso
            obtain ⟨F1', hok'⟩ := check_torsion_identity F hcache
            rw [← hPid] at hok
            rw [hok'] at hok
            obtain ⟨hre, -⟩ : (⟨true, some 1, []⟩ : TorsionResult) = r ∧ F1' = F1 := by
              simpa using hok
            rw [← hre] at hr
            exact hr rfl
          · exact hid hidr

/-- `find_torsion_subgroup` always succeeds (under the cache invariant) and
its result records the identity with order 1 and carries the structure
label computed by `_analyze_group_structure`. -/
theorem find_total (F : TorsionFinder) (xb : ℤ → ℕ)
    (hcache : CacheOK F.curve F.torsion_cache) :
    ∃ sr F2, find_torsion_subgroup F xb = .ok (sr, F2) ∧
      Point.identity ∈ sr.torsion_points ∧ (Point.identity, 1) ∈ sr.orders ∧
      sr.size = sr.torsion_points.length ∧ 1 ≤ sr.size ∧
      sr.group_structure = _analyze_group_structure sr.torsion_points sr.orders := by
  obtain ⟨hidm, hnd, hgood⟩ := nl_candidates_spec F.curve xb
  have hon : ∀ P ∈ _nagell_lutz_candidates F.curve xb, F.curve.is_on_curve P = true := by
    intro P hP
    rcases hgood P hP with rfl | ⟨x, y, rfl, h2, -⟩
    · rfl
    · exact h2
  obtain ⟨pts2, ords2, F2, hsl, -, -, -, -, hid⟩ :=
    subLoop_total (_nagell_lutz_candidates F.curve xb) F [] [] hcache hon
  obtain ⟨hidp, hido⟩ := hid hidm
  refine ⟨⟨pts2, ords2, _analyze_group_structure pts2 ords2, pts2.length⟩, F2,
    ?_, hidp, hido, rfl, ?_, rfl⟩
  · rw [find_torsion_subgroup, hsl]
  · have := List.length_pos.mpr (List.ne_nil_of_mem hidp)
    simpa using this

/-- The first character of an appended string is that of its head. -/
theorem append_head {s : String} (t : String) {c : Char}
    (h : s.data.head? = some c) : (s ++ t).data.head? = some c := by
  rw [String.data_append]
  cases hs : s.data with
  | nil => rw [hs] at h; exact absurd h (by simp)
  | cons a l =>
      rw [hs] at h
      simp only [List.head?_cons, Option.some.injEq] at h
      simp [hs, h]

/-- A string that starts with a character other than `T` is not
`"Trivial"`. -/
theorem ne_trivial_of_head {s : String} {c : Char} (h : s.data.head? = some c)
    (hc : c ≠ 'T') : s ≠ "Trivial" := by
  intro he
  rw [he] at h
  have h2 : ("Trivial").data.head? = some 'T' := rfl
  rw [h2] at h
  simp only [Option.some.injEq] at h
  exact hc h.symm

/-- `_analyze_group_structure` yields the label `"Trivial"` only for an
empty point list. -/
theorem analyze_ne_trivial (pts : List Point) (ords : List (Point × ℕ))
    (h : pts.length ≠ 0) : _analyze_group_structure pts ords ≠ "Trivial" := by
  rw [_analyze_group_structure, if_neg h]
  dsimp only
  split_ifs with h1 h2 h3
  · decide
  · exact ne_trivial_of_head
      (append_head _ (append_head _ (show ("Z/").data.head? = some 'Z' from rfl)))
      (by decide)
  · exact ne_trivial_of_head
      (append_head _ (append_head _ (show ("Z/2Z x Z/").data.head? = some 'Z' from rfl)))
      (by decide)
  · exact ne_trivial_of_head
      (append_head _ (append_head _ (append_head _ (append_head _
        (show ("Unknown (size=").data.head? = some 'U' from rfl)))))
      (by decide)

/-! ## Claim C10: the subgroup always contains the identity -/

/-- Claim C10: for every finder (cache invariant assumed) and window bound,
`find_torsion_subgroup` returns normally, its torsion points contain the
identity with recorded order 1, its size is at least 1, and the `"Trivial"`
structure label is never produced. -/
theorem C10_subgroup_contains_identity (F : TorsionFinder) (xb : ℤ → ℕ)
    (hcache : CacheOK F.curve F.torsion_cache) :
    ∃ sr F2, find_torsion_subgroup F xb = .ok (sr, F2) ∧
      Point.identity ∈ sr.torsion_points ∧ (Point.identity, 1) ∈ sr.orders ∧
      1 ≤ sr.size ∧ sr.group_structure ≠ "Trivial" := by
  obtain ⟨sr, F2, hok, hidp, hido, hsz, hpos, hstruct⟩ := find_total F xb hcache
  refine ⟨sr, F2, hok, hidp, hido, hpos, ?_⟩
  rw [hstruct]
  exact analyze_ne_trivial _ _ (by omega)

/-- Witness for C10: the fresh finder on `y² = x³ - x` with window bound 1. -/
theorem C10_subgroup_contains_identity_witness :
    ∃ sr F2, find_torsion_subgroup ⟨⟨-1, 0⟩, fun _ => none⟩ (fun _ => 1) = .ok (sr, F2) ∧
      Point.identity ∈ sr.torsion_points ∧ (Point.identity, 1) ∈ sr.orders ∧
      1 ≤ sr.size ∧ sr.group_structure ≠ "Trivial" :=
  C10_subgroup_contains_identity ⟨⟨-1, 0⟩, fun _ => none⟩ (fun _ => 1)
    (fun _ _ h => nomatch h)

/-! ## Claim C3: the Mazur conformance check -/

/-- Claim C3: `verify_torsion_theorem` reports a boolean that is true iff
the recomputed subgroup size lies in `{1, …, 10, 12} ∪ {4, 8, 12, 16}`, and
its result carries the observed size and structure label (and the torsion
points) of that recomputed subgroup. -/
theorem C3_verify_mazur (F : TorsionFinder) (xb : ℤ → ℕ) (v : VerifyResult)
    (F2 : TorsionFinder)
    (h : verify_torsion_theorem F xb = .ok (v, F2)) :
    (v.is_valid = true ↔
      v.size ∈ (({1, 2, 3, 4, 5, 6, 7, 8, 9, 10, 12} ∪ {4, 8, 12, 16}) : Finset ℕ)) ∧
    v.conforms_to_mazur = v.is_valid ∧
    ∃ td, find_torsion_subgroup F xb = .ok (td, F2) ∧
      v.size = td.size ∧ v.group_structure = td.group_structure ∧
      v.torsion_points = td.torsion_points := by
  unfold verify_torsion_theorem at h
  rcases hf : find_torsion_subgroup F xb with e | ⟨td, F1⟩
  · simp only [hf] at h
    exact absurd h (by simp)
  · simp only [hf] at h
    injection h with h1
    injection h1 with h2 h3
    subst h3
    subst h2
    refine ⟨?_, rfl, td, rfl, rfl, rfl, rfl⟩
    simp only [MAZUR_CYCLIC_ORDERS, List.contains, Finset.mem_union, Finset.mem_insert,
      Finset.mem_singleton, Bool.or_eq_true, List.elem_eq_mem, decide_eq_true_eq,
      List.mem_append, List.mem_cons, List.not_mem_nil, or_false, beq_iff_eq]
    constructor
    · intro hx
      omega
    · intro hx
      omega

/-- Witness for C3: the fresh finder on `y² = x³ - x` with window bound 1. -/
theorem C3_verify_mazur_witness :
    ∃ v F2, verify_torsion_theorem ⟨⟨-1, 0⟩, fun _ => none⟩ (fun _ => 1) = .ok (v, F2) ∧
      (v.is_valid = true ↔
        v.size ∈ (({1, 2, 3, 4, 5, 6, 7, 8, 9, 10, 12} ∪ {4, 8, 12, 16}) : Finset ℕ)) := by
  obtain ⟨sr, F2, hfind, -, -, -, -, -⟩ :=
    find_total ⟨⟨-1, 0⟩, fun _ => none⟩ (fun _ => 1) (fun _ _ h => nomatch h)
  have hv : verify_torsion_theorem ⟨⟨-1, 0⟩, fun _ => none⟩ (fun _ => 1) =
      .ok (⟨(MAZUR_CYCLIC_ORDERS ++ [4, 8, 12, 16]).contains sr.size || sr.size == 1,
            sr.size, sr.group_structure,
            (MAZUR_CYCLIC_ORDERS ++ [4, 8, 12, 16]).contains sr.size || sr.size == 1,
            sr.torsion_points⟩, F2) := by
    unfold verify_torsion_theorem
    rw [hfind]
  exact ⟨_, F2, hv,
    (C3_verify_mazur ⟨⟨-1, 0⟩, fun _ => none⟩ (fun _ => 1) _ F2 hv).1⟩

/-! ## Claim C6: commutativity of the group law -/

/-- The chord-and-tangent addition of the source is commutative for all
points (even off the curve): every branch of the case split is symmetric,
and in the chord case the two slopes and resulting coordinates agree. -/
theorem add_comm_all (C : EllipticCurve) (P Q : Point) : C.add P Q = C.add Q P := by
  cases P with
  | identity => cases Q with
    | identity => rfl
    | finite x y => rfl
  | finite x1 y1 => cases Q with
    | identity => rfl
    | finite x2 y2 =>
        by_cases h1 : x1 = x2 ∧ y1 = -y2
        · have h1s : x2 = x1 ∧ y2 = -y1 := ⟨h1.1.symm, by rw [h1.2]; ring⟩
          simp only [EllipticCurve.add, if_pos h1, if_pos h1s]
        · by_cases h2 : x1 = x2 ∧ y1 = y2
          · obtain ⟨hx, hy⟩ := h2
            subst hx
            subst hy
            rfl
          · have h1s : ¬ (x2 = x1 ∧ y2 = -y1) := by
              rintro ⟨hx, hy⟩
              exact h1 ⟨hx.symm, by rw [hy]; ring⟩
            have h2s : ¬ (x2 = x1 ∧ y2 = y1) := by
              rintro ⟨hx, hy⟩
              exact h2 ⟨hx.symm, hy.symm⟩
            by_cases h3 : x2 = x1
            · simp only [EllipticCurve.add, if_neg h1, if_neg h2, if_neg h1s, if_neg h2s,
                if_pos h3, if_pos h3.symm]
            · have h3s : ¬ x1 = x2 := fun hh => h3 hh.symm
              simp only [EllipticCurve.add, if_neg h1, if_neg h2, if_neg h1s, if_neg h2s,
                if_neg h3, if_neg h3s]
              have hx21 : x2 - x1 ≠ 0 := sub_ne_zero_of_ne h3
              have hx12 : x1 - x2 ≠ 0 := sub_ne_zero_of_ne h3s
              rw [Point.finite.injEq]
              constructor
              · field_simp
                ring
              · field_simp
                ring

/-- Claim C6: for all points `P`, `Q` on a valid (nonzero-discriminant)
curve, `add(P, Q) = add(Q, P)`, covering the identity, inverse and
doubling cases. -/
theorem C6_add_commutative (C : EllipticCurve) (P Q : Point)
    (hd : C.discriminant ≠ 0)
    (hP : C.is_on_curve P = true) (hQ : C.is_on_curve Q = true) :
    C.add P Q = C.add Q P :=
  add_comm_all C P Q

/-- Witness for C6: the 2-torsion points `(0, 0)` and `(1, 0)` on
`y² = x³ - x`. -/
theorem C6_add_commutative_witness :
    EllipticCurve.add ⟨-1, 0⟩ (.finite 0 0) (.finite 1 0)
      = EllipticCurve.add ⟨-1, 0⟩ (.finite 1 0) (.finite 0 0) :=
  C6_add_commutative ⟨-1, 0⟩ (.finite 0 0) (.finite 1 0)
    (by norm_num [EllipticCurve.discriminant])
    (by norm_num [EllipticCurve.is_on_curve])
    (by norm_num [EllipticCurve.is_on_curve])

/-! ## Claim C8: `modular_inverse` and the sign-carrying gcd -/

namespace ModularArithmetic

/-- For a negative divisor, the floor-remainder lies in `(a, 0]`. -/
theorem fmod_neg_bounds (b : ℤ) {a : ℤ} (h : a < 0) :
    a < Int.fmod b a ∧ Int.fmod b a ≤ 0 := by
  match b, a with
  | 0, a =>
      simp only [Int.zero_fmod]
      omega
  | Int.ofNat (m+1), Int.negSucc n =>
      have hmn : m % (n+1) < n + 1 := Nat.mod_lt _ (Nat.succ_pos n)
      simp only [Int.fmod, Int.subNatNat_eq_coe, Nat.succ_eq_add_one, Int.negSucc_eq]
      omega
  | Int.negSucc m, Int.negSucc n =>
      have hmn : (m+1) % (n+1) < n + 1 := Nat.mod_lt _ (Nat.succ_pos n)
      simp only [Int.fmod, Nat.succ_eq_add_one, Int.ofNat_eq_natCast, Int.negSucc_eq]
      omega

/-- A nonzero floor-remainder has the sign of the divisor. -/
theorem fmod_sign (b : ℤ) {a : ℤ} (ha : a ≠ 0) (hr : Int.fmod b a ≠ 0) :
    (Int.fmod b a).sign = a.sign := by
  rcases lt_trichotomy a 0 with hneg | rfl | hpos
  · obtain ⟨h1, h2⟩ := fmod_neg_bounds b hneg
    rw [Int.sign_eq_neg_one_of_neg (by omega), Int.sign_eq_neg_one_of_neg hneg]
  · exact absurd rfl ha
  · have h1 := Int.fmod_nonneg' b hpos
    rw [Int.sign_eq_one_of_pos (by omega), Int.sign_eq_one_of_pos hpos]

/-- The gcd is invariant under replacing `b` by `b.fmod a`. -/
theorem gcd_fmod (b a : ℤ) : Int.gcd (Int.fmod b a) a = Int.gcd a b := by
  apply Nat.dvd_antisymm
  · apply Int.natCast_dvd_natCast.mp
    apply Int.dvd_gcd
    · exact Int.gcd_dvd_right
    · have h2 : (↑(Int.gcd (Int.fmod b a) a) : ℤ) ∣ (Int.fmod b a + a * Int.fdiv b a) :=
        dvd_add Int.gcd_dvd_left (Dvd.dvd.mul_right Int.gcd_dvd_right _)
      rwa [Int.fmod_add_fdiv] at h2
  · apply Int.natCast_dvd_natCast.mp
    apply Int.dvd_gcd
    · have h2 : (↑(Int.gcd a b) : ℤ) ∣ b - a * Int.fdiv b a :=
        dvd_sub Int.gcd_dvd_right (Dvd.dvd.mul_right Int.gcd_dvd_left _)
      have hr : Int.fmod b a = b - a * Int.fdiv b a := by
        have := Int.fmod_add_fdiv b a
        omega
      rwa [← hr] at h2
    · exact Int.gcd_dvd_left

/-- Bezout identity for the source's `extended_gcd`: `g = a*x + b*y`. -/
theorem extended_gcd_bezout (a b : ℤ) :
    (extended_gcd a b).1 = a * (extended_gcd a b).2.1 + b * (extended_gcd a b).2.2 := by
  rw [extended_gcd]
  split
  · next h => subst h; simp
  · next h =>
      have ih := extended_gcd_bezout (Int.fmod b a) a
      have hr : Int.fmod b a = b - a * Int.fdiv b a := by
        have := Int.fmod_add_fdiv b a
        omega
      dsimp only
      linear_combination ih + (extended_gcd (Int.fmod b a) a).2.1 * hr
termination_by a.natAbs
decreasing_by
  exact natAbs_fmod_lt b a (by assumption)

/-- The `g` returned by the source's `extended_gcd` for `a ≠ 0` is the gcd
of `a` and `b` carrying the sign of `a`. -/
theorem extended_gcd_g (a b : ℤ) (h : a ≠ 0) :
    (extended_gcd a b).1 = a.sign * ↑(Int.gcd a b) := by
  rw [extended_gcd, if_neg h]
  by_cases hr : Int.fmod b a = 0
  · have hdvd : a ∣ b := fmod_eq_zero_dvd b a hr
    have hgcd : Int.gcd a b = a.natAbs := by
      rw [Int.gcd]
      exact Nat.gcd_eq_left (Int.natAbs_dvd_natAbs.mpr hdvd)
    rw [hr]
    rw [extended_gcd]
    simp only [if_pos rfl]
    rw [hgcd]
    exact (Int.sign_mul_natAbs a).symm
  · have ih := extended_gcd_g (Int.fmod b a) a hr
    dsimp only
    rw [ih, fmod_sign b h hr, gcd_fmod]
termination_by a.natAbs
decreasing_by
  exact natAbs_fmod_lt b a (by assumption)

end ModularArithmetic

/-- Counterexample to C8 as stated: `gcd(-3, 7) = 1`, yet
`modular_inverse(-3, 7)` fails with `NoModularInverse`, because the `g`
computed by `extended_gcd` is `-1`. -/
theorem C8_modular_inverse_counterexample :
    Int.gcd (-3) 7 = 1 ∧
    ModularArithmetic.modular_inverse (-3) 7 = .error Err.noModularInverse := by
  constructor
  · decide
  · have e0 : ModularArithmetic.extended_gcd 0 (-1) = (-1, 0, 1) := by
      rw [ModularArithmetic.extended_gcd]
      norm_num
    have e1 : ModularArithmetic.extended_gcd (-1) (-2) = (-1, 1, 0) := by
      rw [ModularArithmetic.extended_gcd]
      norm_num [show Int.fmod (-2 : ℤ) (-1) = 0 from by decide,
        show Int.fdiv (-2 : ℤ) (-1) = 2 from by decide, e0]
    have e2 : ModularArithmetic.extended_gcd (-2) (-3) = (-1, -1, 1) := by
      rw [ModularArithmetic.extended_gcd]
      norm_num [show Int.fmod (-3 : ℤ) (-2) = -1 from by decide,
        show Int.fdiv (-3 : ℤ) (-2) = 1 from by decide, e1]
    have e3 : ModularArithmetic.extended_gcd (-3) 7 = (-1, -2, -1) := by
      rw [ModularArithmetic.extended_gcd]
      norm_num [show Int.fmod (7 : ℤ) (-3) = -2 from by decide,
        show Int.fdiv (7 : ℤ) (-3) = -3 from by decide, e2]
    rw [ModularArithmetic.modular_inverse]
    rw [e3]
    norm_num

/-- Claim C8, amended: `modular_inverse(a, m)` fails with
`NoModularInverse` exactly when the `g` of `extended_gcd(a, m)` is not 1 —
that is, when `a < 0` (always, even with `gcd(a, m) = 1`), or `a = 0` and
`m ≠ 1`, or `a > 0` and `gcd(a, m) ≠ 1`; and whenever it returns a value
`x` and `m > 1`, `(a·x) mod m = 1` (Python floor-mod). -/
theorem C8_modular_inverse_amended (a m : ℤ) :
    (ModularArithmetic.modular_inverse a m = .error Err.noModularInverse ↔
      (a < 0 ∨ (a = 0 ∧ m ≠ 1) ∨ (0 < a ∧ Int.gcd a m ≠ 1))) ∧
    (∀ x, ModularArithmetic.modular_inverse a m = .ok x → 1 < m →
      Int.fmod (a * x) m = 1) := by
  have hg : (ModularArithmetic.extended_gcd a m).1 = 1 ↔
      ¬ (a < 0 ∨ (a = 0 ∧ m ≠ 1) ∨ (0 < a ∧ Int.gcd a m ≠ 1)) := by
    rcases lt_trichotomy a 0 with hneg | rfl | hpos
    · rw [ModularArithmetic.extended_gcd_g a m (by omega),
        Int.sign_eq_neg_one_of_neg hneg]
      have hnn : (0 : ℤ) ≤ ↑(Int.gcd a m) := Int.natCast_nonneg _
      constructor
      · intro hx
        exfalso
        omega
      · intro hx
        exact absurd (.inl hneg) hx
    · have h0 : ModularArithmetic.extended_gcd 0 m = (m, 0, 1) := by
        rw [ModularArithmetic.extended_gcd]
        simp
      rw [h0]
      simp only [lt_irrefl, false_and, false_or, or_false, ne_eq, true_and, not_not]
    · rw [ModularArithmetic.extended_gcd_g a m (by omega), Int.sign_eq_one_of_pos hpos]
      constructor
      · intro hx
        rintro (h | ⟨h2, -⟩ | ⟨-, h3⟩)
        · omega
        · omega
        · apply h3
          have h4 : (↑(Int.gcd a m) : ℤ) = 1 := by omega
          exact_mod_cast h4
      · intro hx
        push_neg at hx
        have h3 := (hx.2.2) hpos
        have h4 : (↑(Int.gcd a m) : ℤ) = 1 := by exact_mod_cast h3
        omega
  constructor
  · simp only [ModularArithmetic.modular_inverse]
    by_cases h1 : (ModularArithmetic.extended_gcd a m).1 ≠ 1
    · rw [if_pos h1]
      constructor
      · intro _
        by_contra hc
        exact h1 (hg.mpr hc)
      · intro _
        rfl
    · rw [if_neg h1]
      push_neg at h1
      have h2 := hg.mp h1
      constructor
      · intro he
        exfalso
        by_cases hmz : m = 0
        · rw [if_pos hmz] at he
          exact absurd he (by simp)
        · rw [if_neg hmz] at he
          exact absurd he (by simp)
      · intro hc
        exact absurd hc h2
  · intro x hok hm
    simp only [ModularArithmetic.modular_inverse] at hok
    by_cases hga : (ModularArithmetic.extended_gcd a m).1 ≠ 1
    · rw [if_pos hga] at hok
      exact absurd hok (by simp)
    · rw [if_neg hga] at hok
      by_cases hmz : m = 0
      · rw [if_pos hmz] at hok
        exact absurd hok (by simp)
      · rw [if_neg hmz] at hok
        push_neg at hga
        obtain rfl : Int.fmod (Int.fmod (ModularArithmetic.extended_gcd a m).2.1 m + m) m
            = x := by simpa using hok
        have hbez := ModularArithmetic.extended_gcd_bezout a m
        rw [hga] at hbez
        have hmnn : (0 : ℤ) ≤ m := by omega
        rw [Int.fmod_eq_emod _ hmnn, Int.fmod_eq_emod _ hmnn, Int.fmod_eq_emod _ hmnn]
        have hx1 : ((ModularArithmetic.extended_gcd a m).2.1 % m + m * 1) % m
            = ((ModularArithmetic.extended_gcd a m).2.1 % m) % m :=
          Int.add_mul_emod_self_left ((ModularArithmetic.extended_gcd a m).2.1 % m) m 1
        rw [mul_one] at hx1
        rw [hx1, Int.emod_emod_of_dvd _ (dvd_refl m)]
        rw [Int.mul_emod, Int.emod_emod_of_dvd _ (dvd_refl m), ← Int.mul_emod]
        have h1 : a * (ModularArithmetic.extended_gcd a m).2.1
            = 1 + m * (-(ModularArithmetic.extended_gcd a m).2.2) := by
          linear_combination -hbez
        rw [h1]
        rw [@Int.add_mul_emod_self_left 1 m (-(ModularArithmetic.extended_gcd a m).2.2)]
        exact Int.emod_eq_of_lt (by omega) (by omega)

/-- Witness for the amended C8: failure at `a = -3, m = 7` (negative `a`),
and the inverse property at `a = 3, m = 7`. -/
theorem C8_modular_inverse_amended_witness :
    ModularArithmetic.modular_inverse (-3) 7 = .error Err.noModularInverse ∧
    (∀ x, ModularArithmetic.modular_inverse 3 7 = .ok x → Int.fmod (3 * x) 7 = 1) :=
  ⟨(C8_modular_inverse_amended (-3) 7).1.mpr (.inl (by omega)),
   fun x hok => (C8_modular_inverse_amended 3 7).2 x hok (by omega)⟩

/-! ## Claim C4: double-and-add refines repeated addition

The equivalence of the binary `scalar_multiply` loop with naive repeated
addition needs associativity of the chord-and-tangent law, which is
obtained by transporting the source's points to the nonsingular points of
the corresponding Mathlib Weierstrass curve and using its group structure. -/

/-- The short Weierstrass curve `y² = x³ + ax + b` of Mathlib corresponding
to a source curve. -/
def toW (C : EllipticCurve) : WeierstrassCurve.Affine ℚ := ⟨0, 0, 0, C.a, C.b⟩

theorem toW_equation_iff (C : EllipticCurve) (x y : ℚ) :
    (toW C).Equation x y ↔ y ^ 2 = x ^ 3 + C.a * x + C.b := by
  rw [WeierstrassCurve.Affine.equation_iff]
  simp [toW]

theorem toW_delta (C : EllipticCurve) : (toW C).Δ = C.discriminant := by
  simp only [toW, WeierstrassCurve.Δ, WeierstrassCurve.b₂, WeierstrassCurve.b₄,
    WeierstrassCurve.b₆, WeierstrassCurve.b₈, EllipticCurve.discriminant]
  ring

theorem toW_negY (C : EllipticCurve) (x y : ℚ) : (toW C).negY x y = -y := by
  simp [toW, WeierstrassCurve.Affine.negY]

theorem onCurve_iff_equation (C : EllipticCurve) (x y : ℚ) :
    C.is_on_curve (.finite x y) = true ↔ (toW C).Equation x y := by
  rw [toW_equation_iff]
  simp [EllipticCurve.is_on_curve]

theorem nonsingular_of_onCurve (C : EllipticCurve) (hd : C.discriminant ≠ 0) {x y : ℚ}
    (h : C.is_on_curve (.finite x y) = true) : (toW C).Nonsingular x y :=
  WeierstrassCurve.Affine.nonsingular_of_Δ_ne_zero (toW C)
    ((onCurve_iff_equation C x y).mp h) (by rw [toW_delta]; exact hd)

/-- The map from the source's on-curve points to Mathlib's nonsingular
points: identity to zero, finite points to `some`. -/
def liftPoint (C : EllipticCurve) (hd : C.discriminant ≠ 0) :
    (P : Point) → C.is_on_curve P = true → (toW C).Point
  | .identity, _ => 0
  | .finite _ _, h => .some (nonsingular_of_onCurve C hd h)

/-- Coordinate extractor used to invert `liftPoint`. -/
def wCoords {C : EllipticCurve} : (toW C).Point → Option (ℚ × ℚ)
  | .zero => none
  | @WeierstrassCurve.Affine.Point.some _ _ _ x y _ => some (x, y)

theorem liftPoint_injective (C : EllipticCurve) (hd : C.discriminant ≠ 0)
    (P Q : Point) (hP : C.is_on_curve P = true) (hQ : C.is_on_curve Q = true)
    (h : liftPoint C hd P hP = liftPoint C hd Q hQ) : P = Q := by
  cases P with
  | identity => cases Q with
    | identity => rfl
    | finite x y => exact absurd h.symm (WeierstrassCurve.Affine.Point.some_ne_zero _)
  | finite x1 y1 => cases Q with
    | identity => exact absurd h (WeierstrassCurve.Affine.Point.some_ne_zero _)
    | finite x2 y2 =>
        have h2 := congrArg wCoords h
        simp only [liftPoint, wCoords, Option.some.injEq, Prod.mk.injEq] at h2
        rw [h2.1, h2.2]

theorem some_congr {C : EllipticCurve} {x1 y1 x2 y2 : ℚ}
    (h1 : (toW C).Nonsingular x1 y1) (h2 : (toW C).Nonsingular x2 y2)
    (hx : x1 = x2) (hy : y1 = y2) :
    (WeierstrassCurve.Affine.Point.some h1) = .some h2 := by
  subst hx
  subst hy
  rfl

theorem onCurve_of_nonsingular {C : EllipticCurve} {x y : ℚ}
    (h : (toW C).Nonsingular x y) : C.is_on_curve (.finite x y) = true :=
  (onCurve_iff_equation C x y).mpr
    ((WeierstrassCurve.Affine.nonsingular_iff (toW C) x y).mp h).1

theorem liftPoint_identity (C : EllipticCurve) (hd : C.discriminant ≠ 0)
    (h : C.is_on_curve .identity = true) : liftPoint C hd .identity h = 0 := rfl

theorem liftPoint_finite (C : EllipticCurve) (hd : C.discriminant ≠ 0) (x y : ℚ)
    (h : C.is_on_curve (.finite x y) = true) :
    liftPoint C hd (.finite x y) h = .some (nonsingular_of_onCurve C hd h) := rfl

/-- Transport a `liftPoint` along an equality of points (the on-curve proof
is irrelevant). -/
theorem liftPoint_transport (C : EllipticCurve) (hd : C.discriminant ≠ 0)
    {R S : Point} (hRS : R = S) (hR : C.is_on_curve R = true) :
    liftPoint C hd R hR = liftPoint C hd S (by rw [← hRS]; exact hR) := by
  subst hRS
  rfl

/-- The identity is a two-sided unit for the source's `add`. -/
theorem add_identity_left (C : EllipticCurve) (Q : Point) : C.add .identity Q = Q := by
  cases Q <;> rfl

theorem add_identity_right (C : EllipticCurve) (P : Point) : C.add P .identity = P := by
  cases P <;> rfl

/-- `liftPoint` is an additive homomorphism: the sum of two on-curve points
is on the curve and lifts to the Mathlib sum. -/
theorem lift_add (C : EllipticCurve) (hd : C.discriminant ≠ 0) (P Q : Point)
    (hP : C.is_on_curve P = true) (hQ : C.is_on_curve Q = true) :
    ∃ hPQ : C.is_on_curve (C.add P Q) = true,
      liftPoint C hd (C.add P Q) hPQ = liftPoint C hd P hP + liftPoint C hd Q hQ := by
  cases P with
  | identity =>
      refine ⟨by rw [add_identity_left]; exact hQ, ?_⟩
      rw [liftPoint_transport C hd (add_identity_left C Q), liftPoint_identity]
      rw [zero_add]
  | finite x1 y1 =>
    cases Q with
    | identity =>
        refine ⟨by rw [add_identity_right]; exact hP, ?_⟩
        rw [liftPoint_transport C hd (add_identity_right C (.finite x1 y1)),
          liftPoint_identity]
        rw [add_zero]
    | finite x2 y2 =>
        by_cases h1 : x1 = x2 ∧ y1 = -y2
        · have hadd : C.add (.finite x1 y1) (.finite x2 y2) = .identity := by
            simp only [EllipticCurve.add, if_pos h1]
          refine ⟨by rw [hadd]; rfl, ?_⟩
          rw [liftPoint_transport C hd hadd]
          simp only [liftPoint_identity, liftPoint_finite]
          exact (WeierstrassCurve.Affine.Point.add_of_Y_eq h1.1
            (by rw [toW_negY]; exact h1.2)).symm
        · by_cases h2 : x1 = x2 ∧ y1 = y2
          · obtain ⟨hx, hy⟩ := h2
            subst hx
            subst hy
            have hy0 : y1 ≠ 0 := fun h0 => h1 ⟨rfl, by rw [h0]; norm_num⟩
            have hyy : ¬ y1 = -y1 := fun hc => hy0 (by linarith)
            have hyne : y1 ≠ (toW C).negY x1 y1 := by
              rw [toW_negY]
              intro hc
              exact hy0 (by linarith)
            have hadd : C.add (.finite x1 y1) (.finite x1 y1) =
                .finite (((3 * x1 ^ 2 + C.a) / (2 * y1)) ^ 2 - x1 - x1)
                  (((3 * x1 ^ 2 + C.a) / (2 * y1)) *
                    (x1 - (((3 * x1 ^ 2 + C.a) / (2 * y1)) ^ 2 - x1 - x1)) - y1) := by
              simp [EllipticCurve.add, hyy, hy0]
            have hslope : (toW C).slope x1 x1 y1 y1 = (3 * x1 ^ 2 + C.a) / (2 * y1) := by
              rw [WeierstrassCurve.Affine.slope_of_Y_ne rfl hyne, toW_negY]
              simp only [toW]
              ring_nf
            have hns := WeierstrassCurve.Affine.nonsingular_add
              (nonsingular_of_onCurve C hd hP) (nonsingular_of_onCurve C hd hQ)
              (fun _ => hyne)
            have hrhs : (WeierstrassCurve.Affine.Point.some
                  (nonsingular_of_onCurve C hd hP))
                + .some (nonsingular_of_onCurve C hd hQ)
                = .some (WeierstrassCurve.Affine.nonsingular_add
                    (nonsingular_of_onCurve C hd hP) (nonsingular_of_onCurve C hd hQ)
                    (fun _ => hyne)) :=
              WeierstrassCurve.Affine.Point.add_of_Y_ne hyne
            have hxc : (toW C).addX x1 x1 ((toW C).slope x1 x1 y1 y1)
                = ((3 * x1 ^ 2 + C.a) / (2 * y1)) ^ 2 - x1 - x1 := by
              rw [hslope]
              simp only [WeierstrassCurve.Affine.addX, toW]
              ring
            have hyc : (toW C).addY x1 x1 y1 ((toW C).slope x1 x1 y1 y1)
                = ((3 * x1 ^ 2 + C.a) / (2 * y1)) *
                    (x1 - (((3 * x1 ^ 2 + C.a) / (2 * y1)) ^ 2 - x1 - x1)) - y1 := by
              rw [WeierstrassCurve.Affine.addY, WeierstrassCurve.Affine.negAddY, toW_negY,
                hxc, hslope]
              ring
            have hns2 : (toW C).Nonsingular
                (((3 * x1 ^ 2 + C.a) / (2 * y1)) ^ 2 - x1 - x1)
                (((3 * x1 ^ 2 + C.a) / (2 * y1)) *
                  (x1 - (((3 * x1 ^ 2 + C.a) / (2 * y1)) ^ 2 - x1 - x1)) - y1) := by
              rw [← hyc, ← hxc]
              exact hns
            refine ⟨by rw [hadd]; exact onCurve_of_nonsingular hns2, ?_⟩
            rw [liftPoint_transport C hd hadd]
            simp only [liftPoint_finite]
            rw [hrhs]
            exact some_congr _ _ hxc.symm hyc.symm
          · by_cases h3 : x2 = x1
            · exfalso
              subst h3
              have he1 : y1 ^ 2 = x2 ^ 3 + C.a * x2 + C.b := by
                simpa [EllipticCurve.is_on_curve] using hP
              have he2 : y2 ^ 2 = x2 ^ 3 + C.a * x2 + C.b := by
                simpa [EllipticCurve.is_on_curve] using hQ
              have hfac : (y1 - y2) * (y1 + y2) = 0 := by nlinarith [he1, he2]
              rcases mul_eq_zero.mp hfac with hc | hc
              · exact h2 ⟨rfl, by linarith⟩
              · exact h1 ⟨rfl, by linarith⟩
            · have hx12 : x1 ≠ x2 := fun h => h3 h.symm
              have hadd : C.add (.finite x1 y1) (.finite x2 y2) =
                  .finite (((y2 - y1) / (x2 - x1)) ^ 2 - x1 - x2)
                    (((y2 - y1) / (x2 - x1)) *
                      (x1 - (((y2 - y1) / (x2 - x1)) ^ 2 - x1 - x2)) - y1) := by
                simp only [EllipticCurve.add, if_neg h1, if_neg h2, if_neg h3]
              have hslope : (toW C).slope x1 x2 y1 y2 = (y2 - y1) / (x2 - x1) := by
                rw [WeierstrassCurve.Affine.slope_of_X_ne hx12,
                  show y1 - y2 = -(y2 - y1) by ring, show x1 - x2 = -(x2 - x1) by ring,
                  neg_div_neg_eq]
              have hns := WeierstrassCurve.Affine.nonsingular_add
                (nonsingular_of_onCurve C hd hP) (nonsingular_of_onCurve C hd hQ)
                (fun hc => absurd hc hx12)
              have hrhs : (WeierstrassCurve.Affine.Point.some
                    (nonsingular_of_onCurve C hd hP))
                  + .some (nonsingular_of_onCurve C hd hQ)
                  = .some (WeierstrassCurve.Affine.nonsingular_add
                      (nonsingular_of_onCurve C hd hP) (nonsingular_of_onCurve C hd hQ)
                      (fun hc => absurd hc hx12)) :=
                WeierstrassCurve.Affine.Point.add_of_X_ne hx12
              have hxc : (toW C).addX x1 x2 ((toW C).slope x1 x2 y1 y2)
                  = ((y2 - y1) / (x2 - x1)) ^ 2 - x1 - x2 := by
                rw [hslope]
                simp only [WeierstrassCurve.Affine.addX, toW]
                ring
              have hyc : (toW C).addY x1 x2 y1 ((toW C).slope x1 x2 y1 y2)
                  = ((y2 - y1) / (x2 - x1)) *
                      (x1 - (((y2 - y1) / (x2 - x1)) ^ 2 - x1 - x2)) - y1 := by
                rw [WeierstrassCurve.Affine.addY, WeierstrassCurve.Affine.negAddY, toW_negY,
                  hxc, hslope]
                ring
              have hns2 : (toW C).Nonsingular
                  (((y2 - y1) / (x2 - x1)) ^ 2 - x1 - x2)
                  (((y2 - y1) / (x2 - x1)) *
                    (x1 - (((y2 - y1) / (x2 - x1)) ^ 2 - x1 - x2)) - y1) := by
                rw [← hyc, ← hxc]
                exact hns
              refine ⟨by rw [hadd]; exact onCurve_of_nonsingular hns2, ?_⟩
              rw [liftPoint_transport C hd hadd]
              simp only [liftPoint_finite]
              rw [hrhs]
              exact some_congr _ _ hxc.symm hyc.symm

/-- Repeated addition of an on-curve point stays on the curve and lifts to
the `n`-fold multiple in the Mathlib group. -/
theorem lift_repeatedAdd (C : EllipticCurve) (hd : C.discriminant ≠ 0) (P : Point)
    (hP : C.is_on_curve P = true) :
    ∀ n : ℕ, ∃ h : C.is_on_curve (repeatedAdd C P n) = true,
      liftPoint C hd (repeatedAdd C P n) h = n • liftPoint C hd P hP
  | 0 => by
      refine ⟨rfl, ?_⟩
      rw [liftPoint_transport C hd (show repeatedAdd C P 0 = .identity from rfl),
        liftPoint_identity, zero_nsmul]
  | n + 1 => by
      obtain ⟨hn, hln⟩ := lift_repeatedAdd C hd P hP n
      obtain ⟨hadd, hladd⟩ := lift_add C hd (repeatedAdd C P n) P hn hP
      refine ⟨hadd, ?_⟩
      refine hladd.trans ?_
      rw [hln]
      exact (succ_nsmul _ n).symm

/-- The `scalar_multiply` loop stays on the curve and lifts to
`R + n • A` in the Mathlib group. -/
theorem lift_mulLoop (C : EllipticCurve) (hd : C.discriminant ≠ 0) (n : ℕ)
    (R A : Point) (hR : C.is_on_curve R = true) (hA : C.is_on_curve A = true) :
    ∃ h : C.is_on_curve (C.mulLoop R A n) = true,
      liftPoint C hd (C.mulLoop R A n) h
        = liftPoint C hd R hR + n • liftPoint C hd A hA := by
  by_cases h0 : n = 0
  · subst h0
    have he : C.mulLoop R A 0 = R := by
      rw [EllipticCurve.mulLoop]
      simp
    refine ⟨by rw [he]; exact hR, ?_⟩
    rw [liftPoint_transport C hd he, zero_nsmul, add_zero]
  · obtain ⟨hAA, hlAA⟩ := lift_add C hd A A hA hA
    have hlAA2 : liftPoint C hd (C.double A) hAA
        = liftPoint C hd A hA + liftPoint C hd A hA := hlAA
    by_cases hpar : n % 2 = 1
    · obtain ⟨hRA, hlRA⟩ := lift_add C hd R A hR hA
      obtain ⟨hrec, hlrec⟩ := lift_mulLoop C hd (n / 2) (C.add R A) (C.double A) hRA hAA
      have he : C.mulLoop R A n = C.mulLoop (C.add R A) (C.double A) (n / 2) := by
        rw [EllipticCurve.mulLoop, dif_neg h0, if_pos hpar]
      refine ⟨by rw [he]; exact hrec, ?_⟩
      rw [liftPoint_transport C hd he]
      refine hlrec.trans ?_
      rw [hlRA, hlAA2]
      have h2 : liftPoint C hd A hA + liftPoint C hd A hA
          = (2 : ℕ) • liftPoint C hd A hA := (two_nsmul _).symm
      rw [h2, ← mul_nsmul]
      have hn : n = 2 * (n / 2) + 1 := by omega
      conv_rhs => rw [hn]
      rw [add_nsmul, one_nsmul]
      abel
    · obtain ⟨hrec, hlrec⟩ := lift_mulLoop C hd (n / 2) R (C.double A) hR hAA
      have he : C.mulLoop R A n = C.mulLoop R (C.double A) (n / 2) := by
        rw [EllipticCurve.mulLoop, dif_neg h0, if_neg hpar]
      refine ⟨by rw [he]; exact hrec, ?_⟩
      rw [liftPoint_transport C hd he]
      refine hlrec.trans ?_
      rw [hlAA2]
      have h2 : liftPoint C hd A hA + liftPoint C hd A hA
          = (2 : ℕ) • liftPoint C hd A hA := (two_nsmul _).symm
      rw [h2, ← mul_nsmul]
      have hn : 2 * (n / 2) = n := by omega
      rw [hn]
termination_by n
decreasing_by
  all_goals exact Nat.div_lt_self (Nat.pos_of_ne_zero h0) one_lt_two

/-- The double-and-add loop started at the identity computes repeated
addition. -/
theorem mulLoop_eq_repeatedAdd (C : EllipticCurve) (hd : C.discriminant ≠ 0)
    (Q : Point) (hQ : C.is_on_curve Q = true) (k : ℕ) :
    C.mulLoop .identity Q k = repeatedAdd C Q k := by
  obtain ⟨h1, hl1⟩ := lift_mulLoop C hd k .identity Q rfl hQ
  obtain ⟨h2, hl2⟩ := lift_repeatedAdd C hd Q hQ k
  refine liftPoint_injective C hd _ _ h1 h2 ?_
  rw [hl1, hl2, liftPoint_identity, zero_add]

/-- The reflection `pyNeg` preserves being on the curve. -/
theorem pyNeg_on_curve (C : EllipticCurve) {P : Point}
    (hP : C.is_on_curve P = true) : C.is_on_curve P.pyNeg = true := by
  cases P with
  | identity => rfl
  | finite x y =>
      simp only [Point.pyNeg, EllipticCurve.is_on_curve, decide_eq_true_eq] at hP ⊢
      rw [neg_sq]
      exact hP

/-- Claim C4: `scalar_multiply(P, 0) = Identity`, `scalar_multiply(P, 1) = P`,
for `n ≥ 0` double-and-add equals the naive `n`-fold repeated addition of
`P`, and for `n < 0` it equals the `|n|`-fold repeated addition of the
reflected point. -/
theorem C4_scalar_multiply_refines (C : EllipticCurve) (P : Point)
    (hd : C.discriminant ≠ 0) (hP : C.is_on_curve P = true) :
    C.scalar_multiply P 0 = .identity ∧
    C.scalar_multiply P 1 = P ∧
    (∀ n : ℕ, C.scalar_multiply P (n : ℤ) = repeatedAdd C P n) ∧
    (∀ n : ℤ, n < 0 → C.scalar_multiply P n = repeatedAdd C P.pyNeg n.natAbs) := by
  have hpos : ∀ n : ℕ, C.scalar_multiply P (n : ℤ) = repeatedAdd C P n := by
    intro n
    by_cases hn0 : (n : ℤ) = 0
    · obtain rfl : n = 0 := by exact_mod_cast hn0
      rw [EllipticCurve.scalar_multiply]
      simp [repeatedAdd]
    · rw [EllipticCurve.scalar_multiply, if_neg hn0, if_neg (by omega)]
      have ht : ((n : ℤ)).toNat = n := by omega
      rw [ht]
      exact mulLoop_eq_repeatedAdd C hd P hP n
  refine ⟨?_, ?_, hpos, ?_⟩
  · rw [EllipticCurve.scalar_multiply]
    simp
  · have h1 := hpos 1
    rw [repeatedAdd_one] at h1
    simpa using h1
  · intro n hn
    rw [EllipticCurve.scalar_multiply, if_neg (by omega), if_pos hn]
    have ht : (-n).toNat = n.natAbs := by omega
    rw [ht]
    exact mulLoop_eq_repeatedAdd C hd P.pyNeg (pyNeg_on_curve C hP) n.natAbs

/-- Witness for C4 on `y² = x³ - x` with `P = (0, 0)`, exercised at
`n = 5` and `n = -3`. -/
theorem C4_scalar_multiply_refines_witness :
    EllipticCurve.scalar_multiply ⟨-1, 0⟩ (.finite 0 0) 0 = .identity ∧
    EllipticCurve.scalar_multiply ⟨-1, 0⟩ (.finite 0 0) 1 = .finite 0 0 ∧
    EllipticCurve.scalar_multiply ⟨-1, 0⟩ (.finite 0 0) ((5 : ℕ) : ℤ)
      = repeatedAdd ⟨-1, 0⟩ (.finite 0 0) 5 ∧
    EllipticCurve.scalar_multiply ⟨-1, 0⟩ (.finite 0 0) (-3)
      = repeatedAdd ⟨-1, 0⟩ (Point.pyNeg (.finite 0 0)) ((-3 : ℤ)).natAbs := by
  obtain ⟨w0, w1, wpos, wneg⟩ := C4_scalar_multiply_refines ⟨-1, 0⟩ (.finite 0 0)
    (by norm_num [EllipticCurve.discriminant])
    (by norm_num [EllipticCurve.is_on_curve])
  exact ⟨w0, w1, wpos 5, wneg (-3) (by omega)⟩

end ECT
